import Mathlib

/-!
Verification of the argparse-go command-line argument parsing library.

This file is a shallow embedding of the library's source (`argparse.go`):
the `Argument`/`Parser` data model, the value-coercion helper `parseValue`,
the `Parse` token walk (long options, short-option clusters, positionals,
subcommand delegation, default seeding, required checks, help/version
short-circuit), and the typed retrieval operations `GetString`, `GetInt`,
`GetFloat`, `GetBool`, `GetList`, `GetDateTime`.

Modelling conventions:
- Go result maps (string-keyed maps of dynamic values) are modelled as association
  lists with insert-replacing-first-occurrence, which preserves the unique-key
  property of Go maps.
- Go `interface` dynamic values are modelled by the closed sum `Value`.
- Go `float64` carries no claim-relevant semantics here; a float value is
  modelled opaquely by the accepted token text.
- Go `time.Time` is modelled by the `GoTime` record of calendar fields; the
  layout matching of `time.Parse` for the five layouts tried by the source is
  modelled structurally (fixed-width digit fields and literal separators).
- Go strings are byte sequences; short-option clusters are modelled over
  character lists, which coincides with the source for ASCII aliases.
- `os.Exit` calls after help/version rendering are modelled by the dedicated
  outcomes `ParseOutcome.helpExit` / `ParseOutcome.versionExit` carrying the
  result map at the moment of exit.
-/

set_option autoImplicit false

namespace Argparse

/-- The `ArgumentType` enumeration of the source. -/
inductive ArgumentType where
  | String
  | Int
  | Float
  | Bool
  | List
  | Counter
  | DateTime
  deriving DecidableEq, Repr

/-- Model of Go `time.Time` restricted to the calendar fields produced by the
five layouts tried by `parseValue`; `tzMin` is the zone offset in minutes. -/
structure GoTime where
  year : Nat
  month : Nat
  day : Nat
  hour : Nat
  minute : Nat
  second : Nat
  tzMin : Int
  deriving DecidableEq, Repr

/-- The zero `time.Time` (January 1, year 1, 00:00:00 UTC). -/
def goTimeZero : GoTime := ⟨1, 1, 1, 0, 0, 0, 0⟩

/-- Model of the dynamic (`interface`) values stored in argument defaults and
result maps: the closed set of representations the library produces. -/
inductive Value where
  | str (s : String)
  | int (n : Int)
  | float (text : String)
  | bool (b : Bool)
  | list (xs : List String)
  | time (t : GoTime)
  deriving DecidableEq, Repr

/-- True exactly when the dynamic value is a Go `int`. -/
def Value.isInt : Value → Bool
  | .int _ => true
  | _ => false

/-- True exactly when the dynamic value is a Go `float64`. -/
def Value.isFloat : Value → Bool
  | .float _ => true
  | _ => false

/-- True exactly when the dynamic value is a Go `bool`. -/
def Value.isBool : Value → Bool
  | .bool _ => true
  | _ => false

/-- True exactly when the dynamic value is a Go `string` slice. -/
def Value.isList : Value → Bool
  | .list _ => true
  | _ => false

/-- True exactly when the dynamic value is a Go `time.Time`. -/
def Value.isTime : Value → Bool
  | .time _ => true
  | _ => false

/-- True exactly when the dynamic value is a Go `string`. -/
def Value.isStr : Value → Bool
  | .str _ => true
  | _ => false

/-- The `Argument` struct of the source (static fields; the runtime
`value`/`isSet` fields are carried by the parse state instead). -/
structure Argument where
  Name : String := ""
  ShortName : String := ""
  Description : String := ""
  IsRequired : Bool := false
  ArgType : ArgumentType := .String
  DefaultVal : Option Value := none
  ValidChoices : List String := []
  isPositional : Bool := false
  deriving DecidableEq, Repr

/-- `Required` fluent modifier of the source. -/
def Argument.RequiredMod (a : Argument) : Argument := { a with IsRequired := true }

/-- `Default` fluent modifier of the source. -/
def Argument.DefaultMod (a : Argument) (v : Value) : Argument := { a with DefaultVal := some v }

/-- `Choices` fluent modifier of the source. -/
def Argument.ChoicesMod (a : Argument) (cs : List String) : Argument :=
  { a with ValidChoices := cs }

/-- Result maps (string-keyed Go maps of dynamic values in the source) as
association lists with unique keys maintained by `insertKV`. -/
abbrev ResMap := List (String × Value)

/-- Map read: the value stored under a key, if present. -/
def lookupKV (k : String) : ResMap → Option Value
  | [] => none
  | (k', v) :: rest => if k' = k then some v else lookupKV k rest

/-- Map write: replace the first binding of the key, or append a new one.
This models assignment into a Go map. -/
def insertKV (k : String) (v : Value) : ResMap → ResMap
  | [] => [(k, v)]
  | (k', v') :: rest => if k' = k then (k, v) :: rest else (k', v') :: insertKV k v rest

/-- Merge a map's entries into a base map, entries of `m` overwriting the
base; models `for k, v := range m ... result assignment` in the source. -/
def mergeKV (base : ResMap) (m : ResMap) : ResMap :=
  m.foldl (fun acc kv => insertKV kv.1 kv.2 acc) base

/-- Does the token begin with `--`?  Models `strings.HasPrefix(arg, "--")`. -/
def hasDashDash (tok : String) : Bool :=
  match tok.toList with
  | '-' :: '-' :: _ => true
  | _ => false

/-- Does the token begin with `-`?  Models `strings.HasPrefix(arg, "-")`. -/
def hasDash (tok : String) : Bool :=
  match tok.toList with
  | '-' :: _ => true
  | _ => false

/-- Split a character list around every occurrence of a separator character;
models Go `strings.Split` for a one-character separator (an empty input
yields one empty piece). -/
def splitOnChar : List Char → Char → List (List Char)
  | [], _ => [[]]
  | x :: r, c =>
    let rest := splitOnChar r c
    if x = c then [] :: rest else (x :: rest.headD []) :: rest.tail

/-- Split at the first `=`, if any; models `strings.SplitN(s, sep, 2)`:
the part before the first separator, and everything after it. -/
def splitFirstEq : List Char → List Char × Option (List Char)
  | [] => ([], none)
  | x :: r =>
    if x = '=' then ([], some r)
    else
      let p := splitFirstEq r
      (x :: p.1, p.2)

/-- Join strings with a separator (as `strings.Join`). -/
def joinSep (sep : String) : List String → String
  | [] => ""
  | x :: r => match r with
    | [] => x
    | _ :: _ => x ++ sep ++ joinSep sep r

/-- Accumulate base-10 digits left to right; `none` on a non-digit. -/
def digitsAcc : Nat → List Char → Option Nat
  | acc, [] => some acc
  | acc, c :: r => if c.isDigit then digitsAcc (acc * 10 + (c.toNat - 48)) r else none

/-- Digits of a base-10 numeral, or `none` when empty or non-numeric. -/
def digitsToNat : List Char → Option Nat
  | [] => none
  | ds => digitsAcc 0 ds

/-- Model of `strconv.Atoi`: optional sign then base-10 digits.  The 64-bit
range error of the source is not modelled (no claim exercises it). -/
def goAtoi (s : String) : Option Int :=
  match s.toList with
  | '+' :: ds => (digitsToNat ds).map Int.ofNat
  | '-' :: ds => (digitsToNat ds).map (fun n => -(n : Int))
  | ds => (digitsToNat ds).map Int.ofNat

/-- Model of `strconv.ParseBool`: the exact literal set accepted by Go. -/
def goParseBool (s : String) : Option Bool :=
  if s = "1" ∨ s = "t" ∨ s = "T" ∨ s = "TRUE" ∨ s = "true" ∨ s = "True" then some true
  else if s = "0" ∨ s = "f" ∨ s = "F" ∨ s = "FALSE" ∨ s = "false" ∨ s = "False" then
    some false
  else none

/-- Syntactic recognizer standing in for `strconv.ParseFloat`: optional sign,
digits with optional fraction, optional exponent.  Accepted float tokens are
carried opaquely as text (no claim depends on float semantics). -/
def goFloatSyntax (s : String) : Bool :=
  let afterSign : List Char → List Char
    | '+' :: r => r
    | '-' :: r => r
    | r => r
  let cs := afterSign s.toList
  let intPart := cs.takeWhile Char.isDigit
  let rest1 := cs.dropWhile Char.isDigit
  let checkExp : List Char → Bool
    | [] => true
    | e :: r =>
      if e = 'e' ∨ e = 'E' then
        let r' := afterSign r
        r' ≠ [] ∧ r'.all Char.isDigit
      else false
  match rest1 with
  | '.' :: fr =>
    let frd := fr.takeWhile Char.isDigit
    (intPart ≠ [] ∨ frd ≠ []) && checkExp (fr.dropWhile Char.isDigit)
  | r => intPart ≠ [] && checkExp r

/-- Read exactly `k` digits from the front, returning their value. -/
def readNatFixed : Nat → List Char → Option (Nat × List Char)
  | 0, cs => some (0, cs)
  | _ + 1, [] => none
  | k + 1, c :: cs =>
    if c.isDigit then
      (readNatFixed k cs).map (fun p => (p.1 + (c.toNat - 48) * 10 ^ k, p.2))
    else none

/-- Leap-year rule of the Gregorian calendar, as used by Go's time package. -/
def isLeap (y : Nat) : Bool := (y % 4 = 0 ∧ y % 100 ≠ 0) ∨ y % 400 = 0

/-- Days in a month. -/
def daysInMonth (y m : Nat) : Nat :=
  if m = 2 then (if isLeap y then 29 else 28)
  else if m = 4 ∨ m = 6 ∨ m = 9 ∨ m = 11 then 30
  else 31

/-- Expect a literal character at the front. -/
def expectChar (c : Char) : List Char → Option (List Char)
  | c' :: cs => if c' = c then some cs else none
  | [] => none

/-- Match layout `2006-01-02` as a prefix, with range validation. -/
def matchYMD (cs : List Char) : Option ((Nat × Nat × Nat) × List Char) := do
  let (y, cs) ← readNatFixed 4 cs
  let cs ← expectChar '-' cs
  let (m, cs) ← readNatFixed 2 cs
  let cs ← expectChar '-' cs
  let (d, cs) ← readNatFixed 2 cs
  if 1 ≤ m ∧ m ≤ 12 ∧ 1 ≤ d ∧ d ≤ daysInMonth y m then some ((y, m, d), cs) else none

/-- Match layout `15:04:05` as a prefix, with range validation. -/
def matchHMS (cs : List Char) : Option ((Nat × Nat × Nat) × List Char) := do
  let (h, cs) ← readNatFixed 2 cs
  let cs ← expectChar ':' cs
  let (mi, cs) ← readNatFixed 2 cs
  let cs ← expectChar ':' cs
  let (s, cs) ← readNatFixed 2 cs
  if h ≤ 23 ∧ mi ≤ 59 ∧ s ≤ 59 then some ((h, mi, s), cs) else none

/-- Match layout `01/02/2006` (month/day/year) as a prefix. -/
def matchMDY (cs : List Char) : Option ((Nat × Nat × Nat) × List Char) := do
  let (m, cs) ← readNatFixed 2 cs
  let cs ← expectChar '/' cs
  let (d, cs) ← readNatFixed 2 cs
  let cs ← expectChar '/' cs
  let (y, cs) ← readNatFixed 4 cs
  if 1 ≤ m ∧ m ≤ 12 ∧ 1 ≤ d ∧ d ≤ daysInMonth y m then some ((y, m, d), cs) else none

/-- Match a zone suffix `Z` or `+hh:mm` / `-hh:mm`, yielding offset minutes. -/
def matchZone : List Char → Option (Int × List Char)
  | 'Z' :: cs => some (0, cs)
  | '+' :: cs => do
    let (h, cs) ← readNatFixed 2 cs
    let cs ← expectChar ':' cs
    let (m, cs) ← readNatFixed 2 cs
    some ((h * 60 + m : Nat), cs)
  | '-' :: cs => do
    let (h, cs) ← readNatFixed 2 cs
    let cs ← expectChar ':' cs
    let (m, cs) ← readNatFixed 2 cs
    some (-((h * 60 + m : Nat) : Int), cs)
  | _ => none

/-- Model of `time.Parse` over the five layouts tried in order by the
source's `parseValue` (RFC3339, `2006-01-02`, `2006-01-02 15:04:05`,
`01/02/2006`, `01/02/2006 15:04:05`); fractional seconds and lenient
field widths of Go's parser are not modelled (no claim exercises them). -/
def goTimeParseAny (s : String) : Option GoTime :=
  let cs := s.toList
  let rfc : Option GoTime := do
    let ((y, m, d), cs) ← matchYMD cs
    let cs ← expectChar 'T' cs
    let ((h, mi, sec), cs) ← matchHMS cs
    let (tz, cs) ← matchZone cs
    if cs = [] then some ⟨y, m, d, h, mi, sec, tz⟩ else none
  let dateOnly : Option GoTime := do
    let ((y, m, d), cs) ← matchYMD cs
    if cs = [] then some ⟨y, m, d, 0, 0, 0, 0⟩ else none
  let dateTime : Option GoTime := do
    let ((y, m, d), cs) ← matchYMD cs
    let cs ← expectChar ' ' cs
    let ((h, mi, sec), cs) ← matchHMS cs
    if cs = [] then some ⟨y, m, d, h, mi, sec, 0⟩ else none
  let mdy : Option GoTime := do
    let ((y, m, d), cs) ← matchMDY cs
    if cs = [] then some ⟨y, m, d, 0, 0, 0, 0⟩ else none
  let mdyTime : Option GoTime := do
    let ((y, m, d), cs) ← matchMDY cs
    let cs ← expectChar ' ' cs
    let ((h, mi, sec), cs) ← matchHMS cs
    if cs = [] then some ⟨y, m, d, h, mi, sec, 0⟩ else none
  (((rfc.orElse fun _ => dateOnly).orElse fun _ => dateTime).orElse fun _ => mdy).orElse
    fun _ => mdyTime

/-- The `parseValue` helper of the source: coerce one raw token at a declared
type.  The `Counter` case falls into the source's `default` branch, which
returns the raw string.  Error payloads summarize the wrapped Go error. -/
def parseValue (t : ArgumentType) (value : String) : Except String Value :=
  match t with
  | .String => .ok (.str value)
  | .Int =>
    match goAtoi value with
    | some n => .ok (.int n)
    | none => .error "invalid syntax"
  | .Float =>
    if goFloatSyntax value then .ok (.float value) else .error "invalid syntax"
  | .Bool =>
    match goParseBool value with
    | some b => .ok (.bool b)
    | none => .error "invalid syntax"
  | .List => .ok (.list ((splitOnChar value.toList ',').map List.asString))
  | .DateTime =>
    match goTimeParseAny value with
    | some tm => .ok (.time tm)
    | none => .error "invalid datetime format"
  | .Counter => .ok (.str value)

/-- The `Parser` struct of the source.  Subparsers are kept as an association
list from subcommand name to child parser (Go uses a map with unique keys;
`NewCommand` inserts by name). -/
inductive Parser where
  | mk (name : String) (description : String) (epilog : String) (version : String)
      (args : List Argument) (positional : List Argument)
      (subparsers : List (String × Parser))

/-- The registered optional-argument definitions. -/
def Parser.args : Parser → List Argument
  | .mk _ _ _ _ a _ _ => a

/-- The registered positional definitions. -/
def Parser.positional : Parser → List Argument
  | .mk _ _ _ _ _ p _ => p

/-- The registered subcommands. -/
def Parser.subparsers : Parser → List (String × Parser)
  | .mk _ _ _ _ _ _ s => s

/-- The parser's name. -/
def Parser.pname : Parser → String
  | .mk n _ _ _ _ _ _ => n

/-- `NewParser` of the source. -/
def NewParser (name description : String) : Parser :=
  .mk name description "" "1.0.0" [] [] []

/-- `Flag` of the source: stamp the alias/name onto the options bundle and
append it to the optional definitions. -/
def Parser.FlagAdd (p : Parser) (shortName longName : String) (o : Argument) : Parser :=
  match p with
  | .mk n d e v args pos subs =>
    .mk n d e v
      (args ++ [{ o with ShortName := shortName, Name := longName, isPositional := false }])
      pos subs

/-- `String` registration method of the source. -/
def Parser.StringAdd (p : Parser) (shortName longName : String) (o : Argument) : Parser :=
  p.FlagAdd shortName longName { o with ArgType := .String }

/-- `Int` registration method of the source. -/
def Parser.IntAdd (p : Parser) (shortName longName : String) (o : Argument) : Parser :=
  p.FlagAdd shortName longName { o with ArgType := .Int }

/-- `Float` registration method of the source. -/
def Parser.FloatAdd (p : Parser) (shortName longName : String) (o : Argument) : Parser :=
  p.FlagAdd shortName longName { o with ArgType := .Float }

/-- `Bool` registration method of the source: note that it unconditionally
overwrites the caller's `DefaultVal` with `false`. -/
def Parser.BoolAdd (p : Parser) (shortName longName : String) (o : Argument) : Parser :=
  p.FlagAdd shortName longName { o with ArgType := .Bool, DefaultVal := some (.bool false) }

/-- `List` registration method of the source (default empty slice if unset). -/
def Parser.ListAdd (p : Parser) (shortName longName : String) (o : Argument) : Parser :=
  p.FlagAdd shortName longName
    { o with ArgType := .List,
             DefaultVal := match o.DefaultVal with
               | none => some (.list [])
               | some v => some v }

/-- `Counter` registration method of the source (default 0 if unset). -/
def Parser.CounterAdd (p : Parser) (shortName longName : String) (o : Argument) : Parser :=
  p.FlagAdd shortName longName
    { o with ArgType := .Counter,
             DefaultVal := match o.DefaultVal with
               | none => some (.int 0)
               | some v => some v }

/-- `DateTime` registration method of the source. -/
def Parser.DateTimeAdd (p : Parser) (shortName longName : String) (o : Argument) : Parser :=
  p.FlagAdd shortName longName { o with ArgType := .DateTime }

/-- `Positional` registration method of the source. -/
def Parser.PositionalAdd (p : Parser) (name : String) (o : Argument) : Parser :=
  match p with
  | .mk n d e v args pos subs =>
    .mk n d e v args (pos ++ [{ o with Name := name, isPositional := true }]) subs

/-- `AddHelp` of the source: registers `-h, --help` as a Bool flag. -/
def Parser.AddHelpP (p : Parser) : Parser :=
  p.FlagAdd "h" "help"
    { Description := "Show this help message and exit", ArgType := .Bool,
      DefaultVal := some (.bool false) }

/-- `AddVersion` of the source: registers `-V, --version` as a Bool flag. -/
def Parser.AddVersionP (p : Parser) : Parser :=
  p.FlagAdd "V" "version"
    { Description := "Show program version and exit", ArgType := .Bool,
      DefaultVal := some (.bool false) }

/-- `NewCommand` of the source: register a named child parser. -/
def Parser.NewCommandAdd (p : Parser) (name description : String) : Parser :=
  match p with
  | .mk n d e v args pos subs =>
    .mk n d e v args pos (subs ++ [(name, .mk name description "" v [] [] [])])

/-- The error taxonomy of `Parse`, one constructor per `fmt.Errorf` site. -/
inductive ParseError where
  | invalidLong (name : String) (msg : String)
  | longRequiresValue (name : String)
  | unknownLong (name : String)
  | invalidShort (c : Char) (msg : String)
  | shortRequiresValue (c : Char)
  | unknownShort (c : Char)
  | invalidPositional (name : String) (msg : String)
  | unrecognizedPositional (tok : String)
  | requiredMissingBare (name : String)
  | requiredMissingBoth (name : String) (short : String)
  | requiredMissingLong (name : String)
  | requiredPositionalMissing (name : String)
  deriving DecidableEq, Repr

/-- True on the error constructors produced by the required-argument checks. -/
def ParseError.isMissingRequired : ParseError → Bool
  | .requiredMissingBare _ => true
  | .requiredMissingBoth _ _ => true
  | .requiredMissingLong _ => true
  | .requiredPositionalMissing _ => true
  | _ => false

/-- Outcome of a `Parse` call.  `helpExit`/`versionExit` model the
`os.Exit 0` taken after rendering help or version, carrying the result map
in scope at that point. -/
inductive ParseOutcome where
  | ok (result : ResMap)
  | err (e : ParseError)
  | helpExit (result : ResMap)
  | versionExit (result : ResMap)
  deriving DecidableEq, Repr

/-- Mutable state threaded through the token walk: the result map, the
per-definition `isSet` marks (as index sets into the optional and positional
definition lists), the positional cursor, and the help/version flags. -/
structure PState where
  result : ResMap
  seenOpt : List Nat
  seenPos : List Nat
  posIndex : Nat
  hasHelp : Bool
  hasVersion : Bool
  deriving DecidableEq, Repr

/-- Find the first optional definition with the given long name, together
with its index; models the `for _, option := range p.args` match loop. -/
def findArgLong : List Argument → String → Option (Nat × Argument)
  | [], _ => none
  | a :: rest, n =>
    if a.Name = n then some (0, a)
    else (findArgLong rest n).map (fun p => (p.1 + 1, p.2))

/-- Find the first optional definition with the given one-character short
alias, together with its index. -/
def findArgShort : List Argument → Char → Option (Nat × Argument)
  | [], _ => none
  | a :: rest, c =>
    if a.ShortName = String.singleton c then some (0, a)
    else (findArgShort rest c).map (fun p => (p.1 + 1, p.2))

/-- Store a value for the optional definition at index `k`. -/
def PState.setOpt (st : PState) (k : Nat) (name : String) (v : Value) : PState :=
  { st with result := insertKV name v st.result, seenOpt := k :: st.seenOpt }

/-- The walk over one short-option cluster (the `for j, shortOpt := range
shortName` loop of the source).  Faithful to the source's control flow,
including its quirks: a boolean or counter alias always ends cluster
processing (the `j+1 < len` post-check breaks unless the alias was the last
character), while a fused value sets `j = len` so the post-check does not
break and scanning continues into the value characters.  Returns the updated
state and whether the next whole token was consumed as a value. -/
def shortLoop (optDefs : List Argument) :
    List Char → List String → PState → Except ParseError (PState × Bool)
  | [], _, st => .ok (st, false)
  | c :: cs, rest, st =>
    match findArgShort optDefs c with
    | none => .error (.unknownShort c)
    | some (k, o) =>
      match o.ArgType with
      | .Bool => .ok (st.setOpt k o.Name (.bool true), false)
      | .Counter =>
        let count : Int := match lookupKV o.Name st.result with
          | some (.int n) => n
          | _ => 0
        .ok (st.setOpt k o.Name (.int (count + 1)), false)
      | t =>
        if cs.isEmpty then
          match rest with
          | [] => .error (.shortRequiresValue c)
          | next :: _ =>
            if hasDash next then .error (.shortRequiresValue c)
            else
              match parseValue t next with
              | .error m => .error (.invalidShort c m)
              | .ok v => .ok (st.setOpt k o.Name v, true)
        else
          match parseValue t (String.mk cs) with
          | .error m => .error (.invalidShort c m)
          | .ok v => shortLoop optDefs cs rest (st.setOpt k o.Name v)

/-- Raise the help flag and write the `help` result entry. -/
def helpMark (st : PState) : PState :=
  { st with hasHelp := true, result := insertKV "help" (.bool true) st.result }

/-- Raise the version flag and write the `version` result entry. -/
def versionMark (st : PState) : PState :=
  { st with hasVersion := true, result := insertKV "version" (.bool true) st.result }

/-- Record the `--help` / `--version` (and `-h` / `-V`) special case: set the
flag and write the result entry, independent of registration. -/
def specialStep (name : String) (st : PState) : PState :=
  if name = "help" then helpMark st
  else if name = "version" then versionMark st
  else st

/-- Processing of one long option (the `--` branch of the loop body) after
the token has been split into name, inline-value presence, and inline value.
Returns the updated state and whether the next whole token was consumed. -/
def longStep (optDefs : List Argument) (name : String) (hasValue : Bool) (value : String)
    (rest : List String) (st : PState) : Except ParseError (PState × Bool) :=
  let st1 := specialStep name st
  match findArgLong optDefs name with
  | none => .error (.unknownLong name)
  | some (k, o) =>
    match o.ArgType with
    | .Bool => .ok (st1.setOpt k o.Name (.bool true), false)
    | .Counter =>
      let count : Int := match lookupKV o.Name st1.result with
        | some (.int n) => n
        | _ => 0
      .ok (st1.setOpt k o.Name (.int (count + 1)), false)
    | t =>
      if hasValue then
        match parseValue t value with
        | .error m => .error (.invalidLong name m)
        | .ok v => .ok (st1.setOpt k o.Name v, false)
      else
        match rest with
        | [] => .error (.longRequiresValue name)
        | next :: _ =>
          if hasDash next then .error (.longRequiresValue name)
          else
            match parseValue t next with
            | .error m => .error (.invalidLong name m)
            | .ok v => .ok (st1.setOpt k o.Name v, true)

/-- Processing of one short-option token (the single-`-` branch): the
whole-token `h` / `V` special case, then the cluster walk. -/
def shortStep (optDefs : List Argument) (shortName : String) (rest : List String)
    (st : PState) : Except ParseError (PState × Bool) :=
  let st1 :=
    if shortName = "h" then helpMark st
    else if shortName = "V" then versionMark st
    else st
  shortLoop optDefs shortName.toList rest st1

/-- Processing of one positional token (the no-dash branch): match the next
unfilled positional slot, coerce and store. -/
def posStep (posDefs : List Argument) (tok : String) (st : PState) :
    Except ParseError PState :=
  if h : st.posIndex < posDefs.length then
    let pos := posDefs.get ⟨st.posIndex, h⟩
    match parseValue pos.ArgType tok with
    | .error m => .error (.invalidPositional pos.Name m)
    | .ok v =>
      .ok { st with result := insertKV pos.Name v st.result,
                    seenPos := st.posIndex :: st.seenPos,
                    posIndex := st.posIndex + 1 }
  else .error (.unrecognizedPositional tok)

/-- Classify one token and run the matching branch. -/
def tokenStep (optDefs posDefs : List Argument) (tok : String) (rest : List String)
    (st : PState) : Except ParseError (PState × Bool) :=
  if hasDashDash tok then
    let parts := splitFirstEq (tok.toList.drop 2)
    longStep optDefs parts.1.asString parts.2.isSome (parts.2.getD []).asString rest st
  else if hasDash tok then
    shortStep optDefs (tok.toList.drop 1).asString rest st
  else
    (posStep posDefs tok st).map (fun st' => (st', false))

/-- The main token walk of `Parse` (everything inside the
`for i := 0; i < len(args); i++` loop except the first-token subcommand
check, which `Parse` performs before entering the walk).  The consumed flag
returned by a step models the loop's `i++` look-ahead consumption. -/
def runTokens (optDefs posDefs : List Argument) :
    List String → PState → Except ParseError PState
  | [], st => .ok st
  | tok :: rest, st =>
    match tokenStep optDefs posDefs tok rest st with
    | .error e => .error e
    | .ok (st2, consumed) =>
      if consumed then
        match rest with
        | _ :: rest2 => runTokens optDefs posDefs rest2 st2
        | [] => .ok st2
      else runTokens optDefs posDefs rest st2

/-- Seed declared defaults into a result map (`result entries for DefaultVal`
loops of the source), in registration order. -/
def seedList : List Argument → ResMap → ResMap
  | [], r => r
  | a :: rest, r =>
    seedList rest (match a.DefaultVal with
      | some v => insertKV a.Name v r
      | none => r)

/-- The initial walk state: defaults of optional then positional definitions
seeded, nothing seen, cursor at the first positional. -/
def initSt (optDefs posDefs : List Argument) : PState :=
  ⟨seedList posDefs (seedList optDefs []), [], [], 0, false, false⟩

/-- The required-argument scan over optional definitions (first loop of the
post-walk checks), with the source's per-shape error messages. -/
def requiredErrOpt : List Argument → List Nat → Nat → Option ParseError
  | [], _, _ => none
  | a :: rest, seen, k =>
    if a.IsRequired && !(seen.contains k) then
      some (if a.isPositional then .requiredMissingBare a.Name
            else if a.ShortName ≠ "" then .requiredMissingBoth a.Name a.ShortName
            else .requiredMissingLong a.Name)
    else requiredErrOpt rest seen (k + 1)

/-- The required-argument scan over positional definitions (second loop). -/
def requiredErrPos : List Argument → List Nat → Nat → Option ParseError
  | [], _, _ => none
  | a :: rest, seen, k =>
    if a.IsRequired && !(seen.contains k) then some (.requiredPositionalMissing a.Name)
    else requiredErrPos rest seen (k + 1)

/-- Both required-argument scans in source order. -/
def requiredErr (optDefs posDefs : List Argument) (st : PState) : Option ParseError :=
  match requiredErrOpt optDefs st.seenOpt 0 with
  | some e => some e
  | none => requiredErrPos posDefs st.seenPos 0

/-- Everything `Parse` does apart from subcommand delegation: the token walk,
then the help/version short-circuit, then the required checks. -/
def runMain (optDefs posDefs : List Argument) (args : List String) : ParseOutcome :=
  match runTokens optDefs posDefs args (initSt optDefs posDefs) with
  | .error e => .err e
  | .ok st =>
    if st.hasHelp then .helpExit st.result
    else if st.hasVersion then .versionExit st.result
    else
      match requiredErr optDefs posDefs st with
      | some e => .err e
      | none => .ok st.result

/-- Exact-name lookup in the subparser map. -/
def subLookup : List (String × Parser) → String → Option Parser
  | [], _ => none
  | (n, q) :: rest, s => if n = s then some q else subLookup rest s

theorem subLookup_sizeOf {l : List (String × Parser)} {s : String} {q : Parser}
    (h : subLookup l s = some q) : sizeOf q < sizeOf l := by
  induction l with
  | nil => simp [subLookup] at h
  | cons hd tl ih =>
    obtain ⟨n, q'⟩ := hd
    by_cases hn : n = s
    · simp [subLookup, hn] at h
      subst h
      simp
      omega
    · simp [subLookup, hn] at h
      have := ih h
      simp
      omega

theorem subparsers_sizeOf (p : Parser) : sizeOf p.subparsers < sizeOf p := by
  cases p with
  | mk n d e v a pos s => simp [Parser.subparsers]

/-- The `Parse` entry point of the source: seed defaults, dispatch to a
subcommand when the very first token names one (merging the child result over
the seeded defaults together with the `subcommand` entry), otherwise run the
token walk and post-walk checks. -/
def Parse (p : Parser) (args : List String) : ParseOutcome :=
  match args with
  | [] => runMain p.args p.positional []
  | tok :: rest =>
    match h : subLookup p.subparsers tok with
    | some sub =>
      match Parse sub rest with
      | .ok m =>
        .ok (mergeKV
          (insertKV "subcommand" (.str tok)
            (seedList p.positional (seedList p.args [])))
          m)
      | o => o
    | none => runMain p.args p.positional (tok :: rest)
termination_by sizeOf p
decreasing_by
  have h1 := subLookup_sizeOf h
  have h2 := subparsers_sizeOf p
  omega

/-- Whether `Parse` takes the subcommand-delegation path on this input. -/
def delegates (p : Parser) (args : List String) : Bool :=
  match args with
  | [] => false
  | tok :: _ => (subLookup p.subparsers tok).isSome

/-- Decimal digits of a natural number, most significant first; the first
argument is recursion fuel (any value above the digit count works). -/
def natDigits : Nat → Nat → List Char
  | 0, _ => []
  | fuel + 1, n =>
    if n < 10 then [Char.ofNat (48 + n)]
    else natDigits fuel (n / 10) ++ [Char.ofNat (48 + n % 10)]

/-- Base-10 rendering of a natural number. -/
def natRepr (n : Nat) : String := (natDigits (n + 1) n).asString

/-- Decimal rendering of a Go `int`, as `fmt.Sprintf` with the default verb
prints it. -/
def goIntRepr (n : Int) : String :=
  if n < 0 then "-" ++ natRepr n.natAbs else natRepr n.toNat

/-- `fmt.Sprintf` with the default verb on the dynamic values the library
stores.  Slices print as bracketed space-separated items.  The float and
timestamp renderings are abstracted (carried text, canonical fields); no
claim depends on them. -/
def sprintfV : Value → String
  | .str s => s
  | .int n => goIntRepr n
  | .bool b => if b then "true" else "false"
  | .list xs => "[" ++ joinSep " " xs ++ "]"
  | .float text => text
  | .time t =>
    goIntRepr (t.year : Int) ++ "-" ++ goIntRepr (t.month : Int) ++ "-" ++
      goIntRepr (t.day : Int)

/-- `Get` of the source, over the result map produced by the parse it
performs internally (`args` map access: `nil` for an absent key). -/
def GetRaw (res : ResMap) (name : String) : Option Value :=
  lookupKV name res

/-- `GetString` of the source: empty string when absent, the string itself on
a string value, otherwise the default `fmt.Sprintf` rendering. -/
def GetString (res : ResMap) (name : String) : String :=
  match GetRaw res name with
  | none => ""
  | some v =>
    match v with
    | .str s => s
    | _ => sprintfV v

/-- `GetInt` of the source: 0 when absent or not an `int`. -/
def GetInt (res : ResMap) (name : String) : Int :=
  match GetRaw res name with
  | some (.int n) => n
  | _ => 0

/-- The zero `float64`, in the opaque text representation of float values. -/
def goFloatZero : String := "0"

/-- `GetFloat` of the source: 0 when absent or not a `float64`. -/
def GetFloat (res : ResMap) (name : String) : String :=
  match GetRaw res name with
  | some (.float text) => text
  | _ => goFloatZero

/-- `GetBool` of the source: false when absent or not a `bool`. -/
def GetBool (res : ResMap) (name : String) : Bool :=
  match GetRaw res name with
  | some (.bool b) => b
  | _ => false

/-- `GetList` of the source: empty slice when absent or not a string slice. -/
def GetList (res : ResMap) (name : String) : List String :=
  match GetRaw res name with
  | some (.list xs) => xs
  | _ => []

/-- `GetDateTime` of the source: the zero timestamp when absent or not a
`time.Time`. -/
def GetDateTime (res : ResMap) (name : String) : GoTime :=
  match GetRaw res name with
  | some (.time t) => t
  | _ => goTimeZero

/-- The token walk of a whole `Parse` call on the non-delegating path,
exposing the final walk state (result map, seen marks, flags). -/
def runState (p : Parser) (args : List String) : Except ParseError PState :=
  runTokens p.args p.positional args (initSt p.args p.positional)

/-- The keys of a result map. -/
def keysOf (m : ResMap) : List String := m.map Prod.fst

/-- Monotone facts preserved from a walk state to any later walk state:
seen marks and help/version flags are never cleared, and unique keys are
preserved. -/
def MonoSt (s s' : PState) : Prop :=
  (∀ k, k ∈ s.seenOpt → k ∈ s'.seenOpt) ∧
  (∀ k, k ∈ s.seenPos → k ∈ s'.seenPos) ∧
  (s.hasHelp = true → s'.hasHelp = true) ∧
  (s.hasVersion = true → s'.hasVersion = true) ∧
  ((keysOf s.result).Nodup → (keysOf s'.result).Nodup)

/-- A name whose result entry may legitimately have been (over)written by the
walk up to state `s`: it names a seen optional definition, a seen positional
definition, or it is the special `help` / `version` entry with the matching
flag raised. -/
def Classified (optDefs posDefs : List Argument) (n : String) (s : PState) : Prop :=
  (∃ k, ∃ h : k < optDefs.length, (optDefs.get ⟨k, h⟩).Name = n ∧ k ∈ s.seenOpt) ∨
  (∃ k, ∃ h : k < posDefs.length, (posDefs.get ⟨k, h⟩).Name = n ∧ k ∈ s.seenPos) ∨
  (n = "help" ∧ s.hasHelp = true) ∨
  (n = "version" ∧ s.hasVersion = true)

/-- The walk invariant: later states extend earlier ones monotonically, and
every result entry is either untouched or classified as written. -/
def StepInv (optDefs posDefs : List Argument) (s s' : PState) : Prop :=
  MonoSt s s' ∧
  ∀ n, lookupKV n s'.result = lookupKV n s.result ∨ Classified optDefs posDefs n s'

/-- C1 test parser: a string definition `--choice` with a default and an
allowed-choices set, exactly as in the README's all-types example. -/
def pChoice : Parser :=
  (NewParser "myapp" "demo").StringAdd "" "choice"
    ((Argument.ChoicesMod
      { Description := "Argument with limited choices", DefaultVal := some (.str "option1") }
      ["option1", "option2", "option3"]))

/-- C2 test parser: an integer definition with short alias `p`. -/
def pPort : Parser :=
  (NewParser "srv" "demo").IntAdd "p" "port" { Description := "Server port" }

/-- C3 test parser: boolean aliases `a`, `b` and a value-taking alias `c`. -/
def pCluster : Parser :=
  (((NewParser "clu" "demo").BoolAdd "a" "alpha"
    { Description := "flag a" }).BoolAdd "b" "beta"
    { Description := "flag b" }).StringAdd "c" "gamma"
    { Description := "value c" }

/-- C4/C10 test parser: a bare parser with no definitions at all. -/
def pPlain : Parser := NewParser "app" "demo"

/-- C4 witness parser: help and version registered via the library's own
`AddHelp` / `AddVersion`. -/
def pHV : Parser := (NewParser "app" "demo").AddHelpP.AddVersionP

/-- C10 test parser: one value-taking long option `--name`. -/
def pName : Parser :=
  (NewParser "app" "demo").StringAdd "n" "name" { Description := "Your name" }

/-- C6 witness child parser: the `add` subcommand with a `--title` option. -/
def childAdd : Parser :=
  (Parser.mk "add" "Add a new task" "" "1.0.0" [] [] []).StringAdd "t" "title"
    { Description := "Task title" }

/-- C6 witness root parser: a parser owning the `add` subcommand, with a
default-carrying option of its own. -/
def rootP : Parser :=
  Parser.mk "taskmgr" "Task manager" "" "1.0.0"
    [{ Name := "verbose", ShortName := "v", ArgType := .Bool,
       DefaultVal := some (.bool false) }] [] [("add", childAdd)]

/-- C7 witness parser: a defaulted optional, a required optional, and a
defaulted positional. -/
def pDefaults : Parser :=
  (((NewParser "app" "demo").StringAdd "o" "output"
    { Description := "Output file", DefaultVal := some (.str "output.txt") }).IntAdd
    "n" "count" { Description := "Count", IsRequired := true }).PositionalAdd "config"
    { Description := "Config file", DefaultVal := some (.str "default.conf") }

/-- C9 witness parser: a boolean flag registered through `Bool` with a caller
default of `true`, which the method overwrites with `false`. -/
def pBoolDefault : Parser :=
  (NewParser "app" "demo").BoolAdd "v" "verbose"
    { Description := "Verbose", DefaultVal := some (.bool true) }

/-- The `-h, --help` definition that AddHelp registers. -/
def helpArgDef : Argument :=
  { Name := "help", ShortName := "h",
    Description := "Show this help message and exit", ArgType := .Bool,
    DefaultVal := some (.bool false) }

/-- The `-V, --version` definition that AddVersion registers. -/
def versionArgDef : Argument :=
  { Name := "version", ShortName := "V",
    Description := "Show program version and exit", ArgType := .Bool,
    DefaultVal := some (.bool false) }

/-- The definition record that the `Bool` registration method appends: the
caller's options with type Bool and default unconditionally overwritten to
`false`. -/
def boolStamped (short long : String) (o : Argument) : Argument :=
  { o with ArgType := .Bool, DefaultVal := some (.bool false), ShortName := short,
           Name := long, isPositional := false }

theorem lookupKV_insertKV_self (k : String) (v : Value) (m : ResMap) :
    lookupKV k (insertKV k v m) = some v := by
  induction m with
  | nil => simp [insertKV, lookupKV]
  | cons hd tl ih =>
    obtain ⟨k', v'⟩ := hd
    by_cases h : k' = k
    · simp [insertKV, lookupKV, h]
    · simp [insertKV, lookupKV, h, ih]

theorem lookupKV_insertKV_ne {k k' : String} (v : Value) (m : ResMap) (h : k' ≠ k) :
    lookupKV k' (insertKV k v m) = lookupKV k' m := by
  induction m with
  | nil => simp [insertKV, lookupKV, Ne.symm h]
  | cons hd tl ih =>
    obtain ⟨k0, v0⟩ := hd
    by_cases h0 : k0 = k
    · subst h0
      simp [insertKV, lookupKV, h, Ne.symm h]
    · by_cases h1 : k0 = k'
      · simp [insertKV, lookupKV, h0, h1, h]
      · simp [insertKV, lookupKV, h0, h1, ih]

theorem lookupKV_eq_none_iff (k : String) (m : ResMap) :
    lookupKV k m = none ↔ k ∉ keysOf m := by
  induction m with
  | nil => simp [lookupKV, keysOf]
  | cons hd tl ih =>
    obtain ⟨k', v⟩ := hd
    by_cases h : k' = k
    · simp [lookupKV, keysOf, h]
    · simp [lookupKV, keysOf, h, Ne.symm h] at ih ⊢
      exact ih

theorem keysOf_nil : keysOf [] = [] := rfl

theorem keysOf_cons (a : String × Value) (m : ResMap) : keysOf (a :: m) = a.1 :: keysOf m := rfl

theorem keysOf_insertKV_mem {k : String} (v : Value) {m : ResMap} (hm : k ∈ keysOf m) :
    keysOf (insertKV k v m) = keysOf m := by
  induction m with
  | nil => simp [keysOf_nil] at hm
  | cons hd tl ih =>
    obtain ⟨k', v'⟩ := hd
    by_cases h : k' = k
    · simp [insertKV, keysOf_cons, h]
    · have hm' : k ∈ keysOf tl := by
        simpa [keysOf_cons, List.mem_cons, Ne.symm h] using hm
      simp only [insertKV, if_neg h, keysOf_cons]
      rw [ih hm']

theorem keysOf_insertKV_not_mem {k : String} (v : Value) {m : ResMap} (hm : k ∉ keysOf m) :
    keysOf (insertKV k v m) = keysOf m ++ [k] := by
  induction m with
  | nil => simp [insertKV, keysOf_nil, keysOf_cons]
  | cons hd tl ih =>
    obtain ⟨k', v'⟩ := hd
    have h : k' ≠ k := by
      intro he
      exact hm (by simp [keysOf_cons, he])
    have hm' : k ∉ keysOf tl := fun hc => hm (by simp [keysOf_cons, hc])
    simp only [insertKV, if_neg h, keysOf_cons]
    rw [ih hm']
    simp

theorem nodup_insertKV (k : String) (v : Value) (m : ResMap)
    (h : (keysOf m).Nodup) : (keysOf (insertKV k v m)).Nodup := by
  by_cases hm : k ∈ keysOf m
  · rw [keysOf_insertKV_mem v hm]
    exact h
  · rw [keysOf_insertKV_not_mem v hm]
    simpa [List.nodup_append] using ⟨h, hm⟩

theorem nodup_mergeKV (base m : ResMap) (h : (keysOf base).Nodup) :
    (keysOf (mergeKV base m)).Nodup := by
  induction m generalizing base with
  | nil => simpa [mergeKV]
  | cons hd tl ih =>
    simpa [mergeKV, List.foldl_cons] using
      ih (insertKV hd.1 hd.2 base) (nodup_insertKV hd.1 hd.2 base h)

theorem lookupKV_mergeKV_of_none {k : String} (base m : ResMap)
    (h : lookupKV k m = none) : lookupKV k (mergeKV base m) = lookupKV k base := by
  induction m generalizing base with
  | nil => simp [mergeKV]
  | cons hd tl ih =>
    obtain ⟨k', v'⟩ := hd
    by_cases hk : k' = k
    · simp [lookupKV, hk] at h
    · simp only [lookupKV, if_neg hk] at h
      have := ih (insertKV k' v' base) h
      simpa [mergeKV, List.foldl_cons, lookupKV_insertKV_ne v' base (fun he => hk he.symm)]
        using this

theorem lookupKV_mergeKV_of_some {k : String} {v : Value} (base m : ResMap)
    (hn : (keysOf m).Nodup) (h : lookupKV k m = some v) :
    lookupKV k (mergeKV base m) = some v := by
  induction m generalizing base with
  | nil => simp [lookupKV] at h
  | cons hd tl ih =>
    obtain ⟨k', v'⟩ := hd
    simp only [keysOf, List.map_cons, List.nodup_cons] at hn
    by_cases hk : k' = k
    · subst hk
      have hvv : v' = v := by simpa [lookupKV] using h
      subst hvv
      have htl : lookupKV k' tl = none :=
        (lookupKV_eq_none_iff k' tl).mpr (by exact hn.1)
      have hmc : mergeKV base ((k', v') :: tl) = mergeKV (insertKV k' v' base) tl := rfl
      rw [hmc, lookupKV_mergeKV_of_none (insertKV k' v' base) tl htl]
      exact lookupKV_insertKV_self k' v' base
    · simp only [lookupKV, if_neg hk] at h
      have hmc : mergeKV base ((k', v') :: tl) = mergeKV (insertKV k' v' base) tl := rfl
      rw [hmc]
      exact ih (insertKV k' v' base) hn.2 h

theorem seedList_lookup_no {defs : List Argument} {n : String}
    (h : ∀ a ∈ defs, a.Name ≠ n) (r : ResMap) :
    lookupKV n (seedList defs r) = lookupKV n r := by
  induction defs generalizing r with
  | nil => simp [seedList]
  | cons hd tl ih =>
    have hhd : hd.Name ≠ n := h hd (by simp)
    have htl : ∀ a ∈ tl, a.Name ≠ n := fun a ha => h a (by simp [ha])
    cases hv : hd.DefaultVal with
    | none => simpa [seedList, hv] using ih htl r
    | some v =>
      simpa [seedList, hv, ih htl] using
        lookupKV_insertKV_ne v r (fun he => hhd he.symm)

theorem seedList_lookup_found {l1 l2 : List Argument} {d : Argument} {n : String} {v : Value}
    (hn : d.Name = n) (hv : d.DefaultVal = some v) (h2 : ∀ a ∈ l2, a.Name ≠ n) (r : ResMap) :
    lookupKV n (seedList (l1 ++ d :: l2) r) = some v := by
  induction l1 generalizing r with
  | nil =>
    simpa [seedList, hv, hn, seedList_lookup_no h2] using lookupKV_insertKV_self n v _
  | cons hd tl ih =>
    cases hd.DefaultVal with
    | none => simpa [seedList] using ih _
    | some w => simpa [seedList] using ih _

theorem seedList_nodup (defs : List Argument) (r : ResMap) (h : (keysOf r).Nodup) :
    (keysOf (seedList defs r)).Nodup := by
  induction defs generalizing r with
  | nil => simpa [seedList]
  | cons hd tl ih =>
    cases hv : hd.DefaultVal with
    | none => simpa [seedList, hv] using ih r h
    | some v => simpa [seedList, hv] using ih _ (nodup_insertKV hd.Name v r h)

theorem findArgLong_spec {defs : List Argument} {n : String} {k : Nat} {d : Argument}
    (h : findArgLong defs n = some (k, d)) :
    ∃ hk : k < defs.length, defs.get ⟨k, hk⟩ = d ∧ d.Name = n := by
  induction defs generalizing k with
  | nil => simp [findArgLong] at h
  | cons hd tl ih =>
    by_cases hn : hd.Name = n
    · simp only [findArgLong, if_pos hn, Option.some.injEq, Prod.mk.injEq] at h
      obtain ⟨hk, hde⟩ := h
      subst hk
      subst hde
      exact ⟨by simp, rfl, hn⟩
    · simp only [findArgLong, if_neg hn] at h
      cases hf : findArgLong tl n with
      | none => simp [hf] at h
      | some p =>
        obtain ⟨k', d'⟩ := p
        simp only [hf, Option.map_some', Option.some.injEq, Prod.mk.injEq] at h
        obtain ⟨hk, hde⟩ := h
        subst hde
        obtain ⟨hk', hget, hname⟩ := ih hf
        subst hk
        exact ⟨Nat.succ_lt_succ hk', hget, hname⟩

theorem findArgShort_spec {defs : List Argument} {c : Char} {k : Nat} {d : Argument}
    (h : findArgShort defs c = some (k, d)) :
    ∃ hk : k < defs.length, defs.get ⟨k, hk⟩ = d ∧ d.ShortName = String.singleton c := by
  induction defs generalizing k with
  | nil => simp [findArgShort] at h
  | cons hd tl ih =>
    by_cases hn : hd.ShortName = String.singleton c
    · simp only [findArgShort, if_pos hn, Option.some.injEq, Prod.mk.injEq] at h
      obtain ⟨hk, hde⟩ := h
      subst hk
      subst hde
      exact ⟨by simp, rfl, hn⟩
    · simp only [findArgShort, if_neg hn] at h
      cases hf : findArgShort tl c with
      | none => simp [hf] at h
      | some p =>
        obtain ⟨k', d'⟩ := p
        simp only [hf, Option.map_some', Option.some.injEq, Prod.mk.injEq] at h
        obtain ⟨hk, hde⟩ := h
        subst hde
        obtain ⟨hk', hget, hname⟩ := ih hf
        subst hk
        exact ⟨Nat.succ_lt_succ hk', hget, hname⟩

theorem monoSt_refl (s : PState) : MonoSt s s :=
  ⟨fun _ h => h, fun _ h => h, id, id, id⟩

theorem monoSt_trans {s s1 s2 : PState} (h1 : MonoSt s s1) (h2 : MonoSt s1 s2) :
    MonoSt s s2 :=
  ⟨fun k hk => h2.1 k (h1.1 k hk), fun k hk => h2.2.1 k (h1.2.1 k hk),
   fun hh => h2.2.2.1 (h1.2.2.1 hh), fun hv => h2.2.2.2.1 (h1.2.2.2.1 hv),
   fun hn => h2.2.2.2.2 (h1.2.2.2.2 hn)⟩

theorem classified_mono {optDefs posDefs : List Argument} {n : String} {s s' : PState}
    (hm : MonoSt s s') (hc : Classified optDefs posDefs n s) :
    Classified optDefs posDefs n s' := by
  rcases hc with ⟨k, hk, hn, hs⟩ | ⟨k, hk, hn, hs⟩ | ⟨hn, hs⟩ | ⟨hn, hs⟩
  · exact Or.inl ⟨k, hk, hn, hm.1 k hs⟩
  · exact Or.inr (Or.inl ⟨k, hk, hn, hm.2.1 k hs⟩)
  · exact Or.inr (Or.inr (Or.inl ⟨hn, hm.2.2.1 hs⟩))
  · exact Or.inr (Or.inr (Or.inr ⟨hn, hm.2.2.2.1 hs⟩))

theorem stepInv_refl (optDefs posDefs : List Argument) (s : PState) :
    StepInv optDefs posDefs s s :=
  ⟨monoSt_refl s, fun _ => Or.inl rfl⟩

theorem stepInv_trans {optDefs posDefs : List Argument} {s s1 s2 : PState}
    (h1 : StepInv optDefs posDefs s s1) (h2 : StepInv optDefs posDefs s1 s2) :
    StepInv optDefs posDefs s s2 := by
  refine ⟨monoSt_trans h1.1 h2.1, fun n => ?_⟩
  rcases h2.2 n with hp | hc
  · rcases h1.2 n with hp' | hc'
    · exact Or.inl (hp.trans hp')
    · exact Or.inr (classified_mono h2.1 hc')
  · exact Or.inr hc

theorem stepInv_setOpt (optDefs posDefs : List Argument) (st : PState) (k : Nat)
    (nm : String) (v : Value) (hk : k < optDefs.length)
    (hnm : (optDefs.get ⟨k, hk⟩).Name = nm) :
    StepInv optDefs posDefs st (st.setOpt k nm v) := by
  refine ⟨⟨fun j hj => ?_, fun j hj => hj, fun h => h, fun h => h, fun h => ?_⟩, fun n => ?_⟩
  · simp [PState.setOpt]
    exact Or.inr hj
  · simpa [PState.setOpt] using nodup_insertKV nm v st.result h
  · by_cases hn : n = nm
    · subst hn
      exact Or.inr (Or.inl ⟨k, hk, hnm, by simp [PState.setOpt]⟩)
    · exact Or.inl (by simpa [PState.setOpt] using lookupKV_insertKV_ne v st.result hn)

theorem stepInv_setHelp (optDefs posDefs : List Argument) (st : PState) :
    StepInv optDefs posDefs st (helpMark st) := by
  unfold helpMark
  refine ⟨⟨fun j hj => hj, fun j hj => hj, fun _ => rfl, fun h => h, fun h => ?_⟩, fun n => ?_⟩
  · simpa using nodup_insertKV "help" (.bool true) st.result h
  · by_cases hn : n = "help"
    · subst hn
      exact Or.inr (Or.inr (Or.inr (Or.inl ⟨rfl, rfl⟩)))
    · exact Or.inl (by simpa using lookupKV_insertKV_ne (.bool true) st.result hn)

theorem stepInv_setVersion (optDefs posDefs : List Argument) (st : PState) :
    StepInv optDefs posDefs st (versionMark st) := by
  unfold versionMark
  refine ⟨⟨fun j hj => hj, fun j hj => hj, fun h => h, fun _ => rfl, fun h => ?_⟩, fun n => ?_⟩
  · simpa using nodup_insertKV "version" (.bool true) st.result h
  · by_cases hn : n = "version"
    · subst hn
      exact Or.inr (Or.inr (Or.inr (Or.inr ⟨rfl, rfl⟩)))
    · exact Or.inl (by simpa using lookupKV_insertKV_ne (.bool true) st.result hn)

theorem stepInv_specialStep (optDefs posDefs : List Argument) (name : String) (st : PState) :
    StepInv optDefs posDefs st (specialStep name st) := by
  unfold specialStep
  by_cases h1 : name = "help"
  · simpa [h1] using stepInv_setHelp optDefs posDefs st
  · by_cases h2 : name = "version"
    · simpa [h1, h2] using stepInv_setVersion optDefs posDefs st
    · simpa [h1, h2] using stepInv_refl optDefs posDefs st

theorem stepInv_longStep {optDefs posDefs : List Argument} {name value : String}
    {hasValue : Bool} {rest : List String} {st st2 : PState} {consumed : Bool}
    (h : longStep optDefs name hasValue value rest st = .ok (st2, consumed)) :
    StepInv optDefs posDefs st st2 := by
  unfold longStep at h
  cases hf : findArgLong optDefs name with
  | none => simp [hf] at h
  | some p =>
    obtain ⟨k, o⟩ := p
    obtain ⟨hk, hget, hname⟩ := findArgLong_spec hf
    have hset : ∀ v : Value,
        StepInv optDefs posDefs st ((specialStep name st).setOpt k o.Name v) :=
      fun v => stepInv_trans (stepInv_specialStep optDefs posDefs name st)
        (stepInv_setOpt optDefs posDefs (specialStep name st) k o.Name v hk
          (by rw [hget]))
    simp only [hf] at h
    cases hty : o.ArgType with
    | Bool =>
      simp only [hty] at h
      simp at h
      obtain ⟨h1, h2⟩ := h
      subst h1
      exact hset (.bool true)
    | Counter =>
      simp only [hty] at h
      simp at h
      obtain ⟨h1, h2⟩ := h
      subst h1
      exact hset _
    | String =>
      simp only [hty] at h
      by_cases hv : hasValue = true
      · rw [if_pos hv] at h
        cases hp : parseValue .String value with
        | error m => simp [hp] at h
        | ok v =>
          simp [hp] at h
          obtain ⟨h1, h2⟩ := h
          subst h1
          exact hset v
      · rw [if_neg hv] at h
        cases rest with
        | nil => simp at h
        | cons next r2 =>
          cases hd : hasDash next with
          | true => simp [hd] at h
          | false =>
            cases hp : parseValue .String next with
            | error m => simp [hd, hp] at h
            | ok v =>
              simp [hd, hp] at h
              obtain ⟨h1, h2⟩ := h
              subst h1
              exact hset v
    | Int =>
      simp only [hty] at h
      by_cases hv : hasValue = true
      · rw [if_pos hv] at h
        cases hp : parseValue .Int value with
        | error m => simp [hp] at h
        | ok v =>
          simp [hp] at h
          obtain ⟨h1, h2⟩ := h
          subst h1
          exact hset v
      · rw [if_neg hv] at h
        cases rest with
        | nil => simp at h
        | cons next r2 =>
          cases hd : hasDash next with
          | true => simp [hd] at h
          | false =>
            cases hp : parseValue .Int next with
            | error m => simp [hd, hp] at h
            | ok v =>
              simp [hd, hp] at h
              obtain ⟨h1, h2⟩ := h
              subst h1
              exact hset v
    | Float =>
      simp only [hty] at h
      by_cases hv : hasValue = true
      · rw [if_pos hv] at h
        cases hp : parseValue .Float value with
        | error m => simp [hp] at h
        | ok v =>
          simp [hp] at h
          obtain ⟨h1, h2⟩ := h
          subst h1
          exact hset v
      · rw [if_neg hv] at h
        cases rest with
        | nil => simp at h
        | cons next r2 =>
          cases hd : hasDash next with
          | true => simp [hd] at h
          | false =>
            cases hp : parseValue .Float next with
            | error m => simp [hd, hp] at h
            | ok v =>
              simp [hd, hp] at h
              obtain ⟨h1, h2⟩ := h
              subst h1
              exact hset v
    | List =>
      simp only [hty] at h
      by_cases hv : hasValue = true
      · rw [if_pos hv] at h
        cases hp : parseValue .List value with
        | error m => simp [hp] at h
        | ok v =>
          simp [hp] at h
          obtain ⟨h1, h2⟩ := h
          subst h1
          exact hset v
      · rw [if_neg hv] at h
        cases rest with
        | nil => simp at h
        | cons next r2 =>
          cases hd : hasDash next with
          | true => simp [hd] at h
          | false =>
            cases hp : parseValue .List next with
            | error m => simp [hd, hp] at h
            | ok v =>
              simp [hd, hp] at h
              obtain ⟨h1, h2⟩ := h
              subst h1
              exact hset v
    | DateTime =>
      simp only [hty] at h
      by_cases hv : hasValue = true
      · rw [if_pos hv] at h
        cases hp : parseValue .DateTime value with
        | error m => simp [hp] at h
        | ok v =>
          simp [hp] at h
          obtain ⟨h1, h2⟩ := h
          subst h1
          exact hset v
      · rw [if_neg hv] at h
        cases rest with
        | nil => simp at h
        | cons next r2 =>
          cases hd : hasDash next with
          | true => simp [hd] at h
          | false =>
            cases hp : parseValue .DateTime next with
            | error m => simp [hd, hp] at h
            | ok v =>
              simp [hd, hp] at h
              obtain ⟨h1, h2⟩ := h
              subst h1
              exact hset v

theorem stepInv_posStep {posDefs : List Argument} {tok : String} {st st' : PState}
    (optDefs : List Argument) (h : posStep posDefs tok st = .ok st') :
    StepInv optDefs posDefs st st' := by
  unfold posStep at h
  split at h
  next hp =>
    dsimp only at h
    split at h
    next m heq => simp at h
    next v heq =>
      simp only [Except.ok.injEq] at h
      subst h
      refine ⟨⟨fun j hj => hj, fun j hj => ?_, fun hh => hh, fun hh => hh, fun hn => ?_⟩,
        fun n => ?_⟩
      · simp
        exact Or.inr hj
      · simpa using nodup_insertKV _ v st.result hn
      · by_cases hn : n = (posDefs.get ⟨st.posIndex, hp⟩).Name
        · subst hn
          exact Or.inr (Or.inr (Or.inl ⟨st.posIndex, hp, rfl, by simp⟩))
        · exact Or.inl (by simpa using lookupKV_insertKV_ne v st.result hn)
  next hp => simp at h

theorem stepInv_shortLoop {optDefs posDefs : List Argument} :
    ∀ {cs : List Char} {rest : List String} {st st2 : PState} {c2 : Bool},
      shortLoop optDefs cs rest st = .ok (st2, c2) → StepInv optDefs posDefs st st2 := by
  intro cs
  induction cs with
  | nil =>
    intro rest st st2 c2 h
    simp only [shortLoop, Except.ok.injEq, Prod.mk.injEq] at h
    obtain ⟨h1, _⟩ := h
    exact h1 ▸ stepInv_refl optDefs posDefs st
  | cons c cs ih =>
    intro rest st st2 c2 h
    simp only [shortLoop] at h
    cases hf : findArgShort optDefs c with
    | none => simp [hf] at h
    | some p =>
      obtain ⟨k, o⟩ := p
      obtain ⟨hk, hget, hsn⟩ := findArgShort_spec hf
      have hset : ∀ v : Value, StepInv optDefs posDefs st (st.setOpt k o.Name v) :=
        fun v => stepInv_setOpt optDefs posDefs st k o.Name v hk (by rw [hget])
      simp only [hf] at h
      cases hty : o.ArgType with
      | Bool =>
        simp only [hty] at h
        simp at h
        obtain ⟨h1, h2⟩ := h
        subst h1
        exact hset (.bool true)
      | Counter =>
        simp only [hty] at h
        simp at h
        obtain ⟨h1, h2⟩ := h
        subst h1
        exact hset _
      | String =>
        simp only [hty] at h
        cases hce : cs.isEmpty with
        | true =>
          rw [if_pos hce] at h
          cases rest with
          | nil => simp at h
          | cons next r2 =>
            cases hd : hasDash next with
            | true => simp [hd] at h
            | false =>
              cases hp : parseValue .String next with
              | error m => simp [hd, hp] at h
              | ok v =>
                simp [hd, hp] at h
                obtain ⟨h1, h2⟩ := h
                subst h1
                exact hset v
        | false =>
          rw [if_neg (by simp [hce])] at h
          cases hp : parseValue .String (String.mk cs) with
          | error m => simp [hp] at h
          | ok v => exact stepInv_trans (hset v) (ih (by simpa [hp] using h))
      | Int =>
        simp only [hty] at h
        cases hce : cs.isEmpty with
        | true =>
          rw [if_pos hce] at h
          cases rest with
          | nil => simp at h
          | cons next r2 =>
            cases hd : hasDash next with
            | true => simp [hd] at h
            | false =>
              cases hp : parseValue .Int next with
              | error m => simp [hd, hp] at h
              | ok v =>
                simp [hd, hp] at h
                obtain ⟨h1, h2⟩ := h
                subst h1
                exact hset v
        | false =>
          rw [if_neg (by simp [hce])] at h
          cases hp : parseValue .Int (String.mk cs) with
          | error m => simp [hp] at h
          | ok v => exact stepInv_trans (hset v) (ih (by simpa [hp] using h))
      | Float =>
        simp only [hty] at h
        cases hce : cs.isEmpty with
        | true =>
          rw [if_pos hce] at h
          cases rest with
          | nil => simp at h
          | cons next r2 =>
            cases hd : hasDash next with
            | true => simp [hd] at h
            | false =>
              cases hp : parseValue .Float next with
              | error m => simp [hd, hp] at h
              | ok v =>
                simp [hd, hp] at h
                obtain ⟨h1, h2⟩ := h
                subst h1
                exact hset v
        | false =>
          rw [if_neg (by simp [hce])] at h
          cases hp : parseValue .Float (String.mk cs) with
          | error m => simp [hp] at h
          | ok v => exact stepInv_trans (hset v) (ih (by simpa [hp] using h))
      | List =>
        simp only [hty] at h
        cases hce : cs.isEmpty with
        | true =>
          rw [if_pos hce] at h
          cases rest with
          | nil => simp at h
          | cons next r2 =>
            cases hd : hasDash next with
            | true => simp [hd] at h
            | false =>
              cases hp : parseValue .List next with
              | error m => simp [hd, hp] at h
              | ok v =>
                simp [hd, hp] at h
                obtain ⟨h1, h2⟩ := h
                subst h1
                exact hset v
        | false =>
          rw [if_neg (by simp [hce])] at h
          cases hp : parseValue .List (String.mk cs) with
          | error m => simp [hp] at h
          | ok v => exact stepInv_trans (hset v) (ih (by simpa [hp] using h))
      | DateTime =>
        simp only [hty] at h
        cases hce : cs.isEmpty with
        | true =>
          rw [if_pos hce] at h
          cases rest with
          | nil => simp at h
          | cons next r2 =>
            cases hd : hasDash next with
            | true => simp [hd] at h
            | false =>
              cases hp : parseValue .DateTime next with
              | error m => simp [hd, hp] at h
              | ok v =>
                simp [hd, hp] at h
                obtain ⟨h1, h2⟩ := h
                subst h1
                exact hset v
        | false =>
          rw [if_neg (by simp [hce])] at h
          cases hp : parseValue .DateTime (String.mk cs) with
          | error m => simp [hp] at h
          | ok v => exact stepInv_trans (hset v) (ih (by simpa [hp] using h))

theorem stepInv_shortStep {optDefs posDefs : List Argument} {shortName : String}
    {rest : List String} {st st2 : PState} {c2 : Bool}
    (h : shortStep optDefs shortName rest st = .ok (st2, c2)) :
    StepInv optDefs posDefs st st2 := by
  unfold shortStep at h
  by_cases h1 : shortName = "h"
  · rw [if_pos h1] at h
    exact stepInv_trans (stepInv_setHelp optDefs posDefs st) (stepInv_shortLoop h)
  · rw [if_neg h1] at h
    by_cases h2 : shortName = "V"
    · rw [if_pos h2] at h
      exact stepInv_trans (stepInv_setVersion optDefs posDefs st) (stepInv_shortLoop h)
    · rw [if_neg h2] at h
      exact stepInv_shortLoop h

theorem stepInv_tokenStep {optDefs posDefs : List Argument} {tok : String}
    {rest : List String} {st st2 : PState} {c2 : Bool}
    (h : tokenStep optDefs posDefs tok rest st = .ok (st2, c2)) :
    StepInv optDefs posDefs st st2 := by
  unfold tokenStep at h
  by_cases hdd : hasDashDash tok = true
  · rw [if_pos hdd] at h
    exact stepInv_longStep h
  · rw [if_neg hdd] at h
    by_cases hd : hasDash tok = true
    · rw [if_pos hd] at h
      exact stepInv_shortStep h
    · rw [if_neg hd] at h
      cases hps : posStep posDefs tok st with
      | error e => simp [hps, Except.map] at h
      | ok stp =>
        simp [hps, Except.map] at h
        obtain ⟨h1, h2⟩ := h
        subst h1
        exact stepInv_posStep optDefs hps

theorem stepInv_runTokens {optDefs posDefs : List Argument} (toks : List String)
    (st : PState) : ∀ st', runTokens optDefs posDefs toks st = .ok st' →
      StepInv optDefs posDefs st st' := by
  induction toks, st using runTokens.induct optDefs posDefs with
  | case1 st =>
    intro st' h
    simp only [runTokens, Except.ok.injEq] at h
    exact h ▸ stepInv_refl optDefs posDefs st
  | case2 tok rest st e htok =>
    intro st' h
    simp [runTokens, htok] at h
  | case3 tok st st2 head rest2 htok ih =>
    intro st' h
    simp only [runTokens, htok] at h
    exact stepInv_trans (stepInv_tokenStep htok) (ih st' (by simpa using h))
  | case4 tok st st2 htok =>
    intro st' h
    simp only [runTokens, htok] at h
    simp at h
    exact h ▸ stepInv_tokenStep htok
  | case5 tok rest st st2 consumed htok hcons ih =>
    intro st' h
    simp only [runTokens, htok] at h
    have hc : consumed = false := by simpa using hcons
    subst hc
    simp at h
    exact stepInv_trans (stepInv_tokenStep htok) (ih st' h)

theorem requiredErrOpt_none_iff (defs : List Argument) (seen : List Nat) :
    ∀ j, requiredErrOpt defs seen j = none ↔
      ∀ i, ∀ h : i < defs.length, (defs.get ⟨i, h⟩).IsRequired = true → (j + i) ∈ seen := by
  induction defs with
  | nil =>
    intro j
    simp [requiredErrOpt]
  | cons a tl ih =>
    intro j
    unfold requiredErrOpt
    by_cases hc : (a.IsRequired && !(seen.contains j)) = true
    · rw [if_pos hc]
      simp only [Bool.and_eq_true, Bool.not_eq_true', Bool.not_eq_true] at hc
      obtain ⟨hreq, hnc⟩ := hc
      have hjn : j ∉ seen := by simpa using hnc
      constructor
      · intro hnone
        exact absurd hnone (by simp)
      · intro hall
        have := hall 0 (by simp) (by simpa using hreq)
        simp at this
        exact absurd this hjn
    · rw [if_neg hc]
      rw [ih (j + 1)]
      constructor
      · intro hall i hi hreq
        cases i with
        | zero =>
          have hreq0 : a.IsRequired = true := by simpa using hreq
          have hcj : seen.contains j = true := by
            rcases Bool.eq_false_or_eq_true (seen.contains j) with ht | hf
            · exact ht
            · exact absurd (by rw [hreq0, hf]; rfl) hc
          have hmem : j ∈ seen := by simpa using hcj
          simpa using hmem
        | succ i2 =>
          have hi2 : i2 < tl.length := by simpa using hi
          have := hall i2 hi2 (by simpa using hreq)
          have heq : j + 1 + i2 = j + (i2 + 1) := by omega
          rwa [heq] at this
      · intro hall i hi hreq
        have := hall (i + 1) (by simpa using hi) (by simpa using hreq)
        have heq : j + (i + 1) = j + 1 + i := by omega
        rwa [heq] at this

theorem requiredErrPos_none_iff (defs : List Argument) (seen : List Nat) :
    ∀ j, requiredErrPos defs seen j = none ↔
      ∀ i, ∀ h : i < defs.length, (defs.get ⟨i, h⟩).IsRequired = true → (j + i) ∈ seen := by
  induction defs with
  | nil =>
    intro j
    simp [requiredErrPos]
  | cons a tl ih =>
    intro j
    unfold requiredErrPos
    by_cases hc : (a.IsRequired && !(seen.contains j)) = true
    · rw [if_pos hc]
      simp only [Bool.and_eq_true, Bool.not_eq_true', Bool.not_eq_true] at hc
      obtain ⟨hreq, hnc⟩ := hc
      have hjn : j ∉ seen := by simpa using hnc
      constructor
      · intro hnone
        exact absurd hnone (by simp)
      · intro hall
        have := hall 0 (by simp) (by simpa using hreq)
        simp at this
        exact absurd this hjn
    · rw [if_neg hc]
      rw [ih (j + 1)]
      constructor
      · intro hall i hi hreq
        cases i with
        | zero =>
          have hreq0 : a.IsRequired = true := by simpa using hreq
          have hcj : seen.contains j = true := by
            rcases Bool.eq_false_or_eq_true (seen.contains j) with ht | hf
            · exact ht
            · exact absurd (by rw [hreq0, hf]; rfl) hc
          have hmem : j ∈ seen := by simpa using hcj
          simpa using hmem
        | succ i2 =>
          have hi2 : i2 < tl.length := by simpa using hi
          have := hall i2 hi2 (by simpa using hreq)
          have heq : j + 1 + i2 = j + (i2 + 1) := by omega
          rwa [heq] at this
      · intro hall i hi hreq
        have := hall (i + 1) (by simpa using hi) (by simpa using hreq)
        have heq : j + (i + 1) = j + 1 + i := by omega
        rwa [heq] at this

theorem requiredErrOpt_isMissing :
    ∀ (defs : List Argument) (seen : List Nat) (j : Nat) (e : ParseError),
      requiredErrOpt defs seen j = some e → e.isMissingRequired = true := by
  intro defs
  induction defs with
  | nil =>
    intro seen j e h
    simp [requiredErrOpt] at h
  | cons a tl ih =>
    intro seen j e h
    unfold requiredErrOpt at h
    by_cases hc : (a.IsRequired && !(seen.contains j)) = true
    · rw [if_pos hc] at h
      simp only [Option.some.injEq] at h
      subst h
      by_cases h1 : a.isPositional = true
      · simp [h1, ParseError.isMissingRequired]
      · by_cases h2 : a.ShortName ≠ ""
        · simp [h1, h2, ParseError.isMissingRequired]
        · simp [h1, h2, ParseError.isMissingRequired]
    · rw [if_neg hc] at h
      exact ih seen (j + 1) e h

theorem requiredErrPos_isMissing :
    ∀ (defs : List Argument) (seen : List Nat) (j : Nat) (e : ParseError),
      requiredErrPos defs seen j = some e → e.isMissingRequired = true := by
  intro defs
  induction defs with
  | nil =>
    intro seen j e h
    simp [requiredErrPos] at h
  | cons a tl ih =>
    intro seen j e h
    unfold requiredErrPos at h
    by_cases hc : (a.IsRequired && !(seen.contains j)) = true
    · rw [if_pos hc] at h
      simp only [Option.some.injEq] at h
      subst h
      simp [ParseError.isMissingRequired]
    · rw [if_neg hc] at h
      exact ih seen (j + 1) e h

theorem requiredErr_isMissing {optDefs posDefs : List Argument} {st : PState}
    {e : ParseError} (h : requiredErr optDefs posDefs st = some e) :
    e.isMissingRequired = true := by
  unfold requiredErr at h
  cases ho : requiredErrOpt optDefs st.seenOpt 0 with
  | some e2 =>
    rw [ho] at h
    simp only [Option.some.injEq] at h
    exact h ▸ requiredErrOpt_isMissing optDefs st.seenOpt 0 e2 ho
  | none =>
    rw [ho] at h
    exact requiredErrPos_isMissing posDefs st.seenPos 0 e h

theorem requiredErr_none_iff (optDefs posDefs : List Argument) (st : PState) :
    requiredErr optDefs posDefs st = none ↔
      (∀ i, ∀ h : i < optDefs.length,
        (optDefs.get ⟨i, h⟩).IsRequired = true → i ∈ st.seenOpt) ∧
      (∀ i, ∀ h : i < posDefs.length,
        (posDefs.get ⟨i, h⟩).IsRequired = true → i ∈ st.seenPos) := by
  unfold requiredErr
  cases ho : requiredErrOpt optDefs st.seenOpt 0 with
  | some e =>
    simp only [ho]
    constructor
    · intro h
      exact absurd h (by simp)
    · intro hall
      have : requiredErrOpt optDefs st.seenOpt 0 = none :=
        (requiredErrOpt_none_iff optDefs st.seenOpt 0).mpr
          (fun i hi hreq => by simpa using hall.1 i hi hreq)
      rw [ho] at this
      exact absurd this (by simp)
  | none =>
    simp only [ho]
    rw [requiredErrPos_none_iff posDefs st.seenPos 0]
    have hopt := (requiredErrOpt_none_iff optDefs st.seenOpt 0).mp ho
    constructor
    · intro h
      exact ⟨fun i hi hreq => by simpa using hopt i hi hreq,
             fun i hi hreq => by simpa using h i hi hreq⟩
    · intro h i hi hreq
      simpa using h.2 i hi hreq

theorem runMain_ok_spec {optDefs posDefs : List Argument} {args : List String}
    {res : ResMap} (h : runMain optDefs posDefs args = .ok res) :
    ∃ st, runTokens optDefs posDefs args (initSt optDefs posDefs) = .ok st ∧
      st.hasHelp = false ∧ st.hasVersion = false ∧
      requiredErr optDefs posDefs st = none ∧ res = st.result := by
  unfold runMain at h
  split at h
  next e heq => exact absurd h (by simp)
  next st heq =>
    split at h
    next hh => exact absurd h (by simp)
    next hh =>
      split at h
      next hv => exact absurd h (by simp)
      next hv =>
        split at h
        next e heq2 => exact absurd h (by simp)
        next heq2 =>
          simp only [ParseOutcome.ok.injEq] at h
          exact ⟨st, heq, by simpa using hh, by simpa using hv, heq2, h.symm⟩

theorem runMain_err_required {optDefs posDefs : List Argument} {args : List String}
    {st : PState} {e : ParseError}
    (hrt : runTokens optDefs posDefs args (initSt optDefs posDefs) = .ok st)
    (hh : st.hasHelp = false) (hv : st.hasVersion = false)
    (hre : requiredErr optDefs posDefs st = some e) :
    runMain optDefs posDefs args = .err e := by
  unfold runMain
  simp only [hrt, hh, hv, hre]
  simp

theorem parse_eq_runMain {p : Parser} {args : List String}
    (h : delegates p args = false) :
    Parse p args = runMain p.args p.positional args := by
  cases args with
  | nil => simp only [Parse]
  | cons tok rest =>
    have hs : subLookup p.subparsers tok = none := by
      cases hc : subLookup p.subparsers tok with
      | none => rfl
      | some sub =>
        rw [delegates, hc] at h
        exact absurd h (by simp)
    simp only [Parse]
    split
    next sub heq =>
      rw [hs] at heq
      exact absurd heq (by simp)
    next heq => rfl

theorem parse_delegate {p : Parser} {tok : String} {rest : List String} {sub : Parser}
    (h : subLookup p.subparsers tok = some sub) :
    Parse p (tok :: rest) =
      match Parse sub rest with
      | .ok m =>
        .ok (mergeKV
          (insertKV "subcommand" (.str tok)
            (seedList p.positional (seedList p.args []))) m)
      | o => o := by
  simp only [Parse]
  split
  next sub2 heq =>
    rw [h] at heq
    simp only [Option.some.injEq] at heq
    subst heq
    rfl
  next heq =>
    rw [h] at heq
    exact absurd heq (by simp)

theorem initSt_nodup (optDefs posDefs : List Argument) :
    (keysOf (initSt optDefs posDefs).result).Nodup := by
  have h0 : (keysOf ([] : ResMap)).Nodup := by simp [keysOf]
  simpa [initSt] using seedList_nodup posDefs _ (seedList_nodup optDefs [] h0)

theorem runMain_ok_nodup {optDefs posDefs : List Argument} {args : List String}
    {res : ResMap} (h : runMain optDefs posDefs args = .ok res) :
    (keysOf res).Nodup := by
  obtain ⟨st, hrt, hh, hv, hre, hres⟩ := runMain_ok_spec h
  have hinv := stepInv_runTokens args (initSt optDefs posDefs) st hrt
  subst hres
  exact hinv.1.2.2.2.2 (initSt_nodup optDefs posDefs)

theorem parse_ok_nodup {p : Parser} {args : List String} {m : ResMap}
    (h : Parse p args = .ok m) : (keysOf m).Nodup := by
  cases args with
  | nil =>
    rw [parse_eq_runMain (by simp [delegates])] at h
    exact runMain_ok_nodup h
  | cons tok rest =>
    cases hs : subLookup p.subparsers tok with
    | none =>
      rw [parse_eq_runMain (by simp [delegates, hs])] at h
      exact runMain_ok_nodup h
    | some sub =>
      rw [parse_delegate hs] at h
      have hbase : (keysOf (insertKV "subcommand" (.str tok)
          (seedList p.positional (seedList p.args [])))).Nodup := by
        apply nodup_insertKV
        exact seedList_nodup p.positional _ (seedList_nodup p.args [] (by simp [keysOf]))
      cases hps : Parse sub rest with
      | ok m2 =>
        rw [hps] at h
        simp only [ParseOutcome.ok.injEq] at h
        exact h ▸ nodup_mergeKV _ m2 hbase
      | err e =>
        rw [hps] at h
        exact absurd h (by simp)
      | helpExit m2 =>
        rw [hps] at h
        exact absurd h (by simp)
      | versionExit m2 =>
        rw [hps] at h
        exact absurd h (by simp)

theorem name_inj {defs : List Argument} (hn : (defs.map Argument.Name).Nodup)
    {i j : Nat} (hi : i < defs.length) (hj : j < defs.length)
    (h : (defs.get ⟨i, hi⟩).Name = (defs.get ⟨j, hj⟩).Name) : i = j := by
  have hi' : i < (defs.map Argument.Name).length := by simpa using hi
  have hj' : j < (defs.map Argument.Name).length := by simpa using hj
  have hg : (defs.map Argument.Name).get ⟨i, hi'⟩ = (defs.map Argument.Name).get ⟨j, hj'⟩ := by
    simpa [List.get_map] using h
  have := hn.get_inj_iff.mp hg
  simpa using Fin.mk.injEq .. ▸ this

theorem names_later_ne {defs : List Argument} (hn : (defs.map Argument.Name).Nodup)
    {k : Nat} (hk : k < defs.length) :
    ∀ a ∈ defs.drop (k + 1), a.Name ≠ (defs.get ⟨k, hk⟩).Name := by
  intro a ha hne
  obtain ⟨⟨j, hj⟩, hget⟩ := List.mem_iff_get.mp ha
  have hj2 : k + 1 + j < defs.length := by
    have := hj
    simp only [List.length_drop] at this
    omega
  have hgd : (defs.drop (k + 1)).get ⟨j, hj⟩ = defs.get ⟨k + 1 + j, hj2⟩ := by
    simp [List.get_drop]
  rw [hgd] at hget
  have hnm : (defs.get ⟨k + 1 + j, hj2⟩).Name = (defs.get ⟨k, hk⟩).Name := by
    rw [hget]
    exact hne
  have := name_inj hn hj2 hk hnm
  omega

theorem seedList_lookup_at {defs : List Argument} (hn : (defs.map Argument.Name).Nodup)
    {k : Nat} (hk : k < defs.length) {v : Value}
    (hv : (defs.get ⟨k, hk⟩).DefaultVal = some v) (r : ResMap) :
    lookupKV (defs.get ⟨k, hk⟩).Name (seedList defs r) = some v := by
  have hsplit : defs = defs.take k ++ defs.get ⟨k, hk⟩ :: defs.drop (k + 1) := by
    rw [← List.drop_eq_get_cons hk, List.take_append_drop]
  have hseed : seedList defs r =
      seedList (defs.take k ++ defs.get ⟨k, hk⟩ :: defs.drop (k + 1)) r := by
    rw [← hsplit]
  rw [hseed]
  exact seedList_lookup_found rfl hv
    (by
      intro a ha
      exact names_later_ne hn hk a ha) r

theorem append_names_split {optDefs posDefs : List Argument}
    (hdist : ((optDefs ++ posDefs).map Argument.Name).Nodup) :
    (optDefs.map Argument.Name).Nodup ∧ (posDefs.map Argument.Name).Nodup ∧
      (optDefs.map Argument.Name).Disjoint (posDefs.map Argument.Name) := by
  rw [List.map_append, List.nodup_append] at hdist
  exact hdist

theorem mem_names_get {defs : List Argument} {k : Nat} (hk : k < defs.length) :
    (defs.get ⟨k, hk⟩).Name ∈ defs.map Argument.Name := by
  exact List.mem_map_of_mem Argument.Name (List.get_mem defs k hk)

theorem not_classified_opt {optDefs posDefs : List Argument} {st : PState}
    (hdist : ((optDefs ++ posDefs).map Argument.Name).Nodup)
    (hh : st.hasHelp = false) (hv : st.hasVersion = false)
    {k : Nat} (hk : k < optDefs.length) (hun : k ∉ st.seenOpt) :
    ¬ Classified optDefs posDefs (optDefs.get ⟨k, hk⟩).Name st := by
  obtain ⟨hno, hnp, hdisj⟩ := append_names_split hdist
  intro hc
  rcases hc with ⟨j, hj, hname, hseen⟩ | ⟨j, hj, hname, hseen⟩ | ⟨_, hflag⟩ | ⟨_, hflag⟩
  · have := name_inj hno hj hk hname
    subst this
    exact hun hseen
  · exact hdisj (mem_names_get hk) (hname ▸ mem_names_get hj)
  · rw [hh] at hflag
    exact absurd hflag (by simp)
  · rw [hv] at hflag
    exact absurd hflag (by simp)

theorem not_classified_pos {optDefs posDefs : List Argument} {st : PState}
    (hdist : ((optDefs ++ posDefs).map Argument.Name).Nodup)
    (hh : st.hasHelp = false) (hv : st.hasVersion = false)
    {k : Nat} (hk : k < posDefs.length) (hun : k ∉ st.seenPos) :
    ¬ Classified optDefs posDefs (posDefs.get ⟨k, hk⟩).Name st := by
  obtain ⟨hno, hnp, hdisj⟩ := append_names_split hdist
  intro hc
  rcases hc with ⟨j, hj, hname, hseen⟩ | ⟨j, hj, hname, hseen⟩ | ⟨_, hflag⟩ | ⟨_, hflag⟩
  · exact hdisj (hname ▸ mem_names_get hj) (mem_names_get hk)
  · have := name_inj hnp hj hk hname
    subst this
    exact hun hseen
  · rw [hh] at hflag
    exact absurd hflag (by simp)
  · rw [hv] at hflag
    exact absurd hflag (by simp)

theorem initSt_lookup_opt {optDefs posDefs : List Argument}
    (hdist : ((optDefs ++ posDefs).map Argument.Name).Nodup)
    {k : Nat} (hk : k < optDefs.length) {v : Value}
    (hv : (optDefs.get ⟨k, hk⟩).DefaultVal = some v) :
    lookupKV (optDefs.get ⟨k, hk⟩).Name (initSt optDefs posDefs).result = some v := by
  obtain ⟨hno, hnp, hdisj⟩ := append_names_split hdist
  have hnopos : ∀ a ∈ posDefs, a.Name ≠ (optDefs.get ⟨k, hk⟩).Name := by
    intro a ha hne
    exact hdisj (mem_names_get hk) (hne ▸ List.mem_map_of_mem Argument.Name ha)
  show lookupKV _ (seedList posDefs (seedList optDefs [])) = some v
  rw [seedList_lookup_no hnopos]
  exact seedList_lookup_at hno hk hv []

theorem initSt_lookup_pos {optDefs posDefs : List Argument}
    (hdist : ((optDefs ++ posDefs).map Argument.Name).Nodup)
    {k : Nat} (hk : k < posDefs.length) {v : Value}
    (hv : (posDefs.get ⟨k, hk⟩).DefaultVal = some v) :
    lookupKV (posDefs.get ⟨k, hk⟩).Name (initSt optDefs posDefs).result = some v := by
  obtain ⟨hno, hnp, hdisj⟩ := append_names_split hdist
  show lookupKV _ (seedList posDefs (seedList optDefs [])) = some v
  exact seedList_lookup_at hnp hk hv _

theorem runState_default_opt {p : Parser} {args : List String} {st : PState}
    (hdist : ((p.args ++ p.positional).map Argument.Name).Nodup)
    (hrs : runState p args = .ok st)
    (hh : st.hasHelp = false) (hv : st.hasVersion = false)
    {k : Nat} (hk : k < p.args.length) (hun : k ∉ st.seenOpt)
    {v : Value} (hval : (p.args.get ⟨k, hk⟩).DefaultVal = some v) :
    lookupKV (p.args.get ⟨k, hk⟩).Name st.result = some v := by
  have hinv := stepInv_runTokens args (initSt p.args p.positional) st hrs
  rcases hinv.2 (p.args.get ⟨k, hk⟩).Name with hpres | hc
  · rw [hpres]
    exact initSt_lookup_opt hdist hk hval
  · exact absurd hc (not_classified_opt hdist hh hv hk hun)

theorem runState_default_pos {p : Parser} {args : List String} {st : PState}
    (hdist : ((p.args ++ p.positional).map Argument.Name).Nodup)
    (hrs : runState p args = .ok st)
    (hh : st.hasHelp = false) (hv : st.hasVersion = false)
    {k : Nat} (hk : k < p.positional.length) (hun : k ∉ st.seenPos)
    {v : Value} (hval : (p.positional.get ⟨k, hk⟩).DefaultVal = some v) :
    lookupKV (p.positional.get ⟨k, hk⟩).Name st.result = some v := by
  have hinv := stepInv_runTokens args (initSt p.args p.positional) st hrs
  rcases hinv.2 (p.positional.get ⟨k, hk⟩).Name with hpres | hc
  · rw [hpres]
    exact initSt_lookup_pos hdist hk hval
  · exact absurd hc (not_classified_pos hdist hh hv hk hun)

theorem runTokens_help_long {optDefs posDefs : List Argument} {k : Nat} {d : Argument}
    (hf : findArgLong optDefs "help" = some (k, d)) (hb : d.ArgType = .Bool) (st : PState) :
    runTokens optDefs posDefs ["--help"] st =
      .ok ((specialStep "help" st).setOpt k d.Name (.bool true)) := by
  have hts : tokenStep optDefs posDefs "--help" [] st =
      longStep optDefs "help" false "" [] st := rfl
  have hls : longStep optDefs "help" false "" [] st =
      .ok ((specialStep "help" st).setOpt k d.Name (.bool true), false) := by
    unfold longStep
    simp only [hf, hb]
  simp only [runTokens, hts, hls]
  simp [runTokens]

theorem runTokens_version_long {optDefs posDefs : List Argument} {k : Nat} {d : Argument}
    (hf : findArgLong optDefs "version" = some (k, d)) (hb : d.ArgType = .Bool) (st : PState) :
    runTokens optDefs posDefs ["--version"] st =
      .ok ((specialStep "version" st).setOpt k d.Name (.bool true)) := by
  have hts : tokenStep optDefs posDefs "--version" [] st =
      longStep optDefs "version" false "" [] st := rfl
  have hls : longStep optDefs "version" false "" [] st =
      .ok ((specialStep "version" st).setOpt k d.Name (.bool true), false) := by
    unfold longStep
    simp only [hf, hb]
  simp only [runTokens, hts, hls]
  simp [runTokens]

theorem runTokens_h_short {optDefs posDefs : List Argument} {k : Nat} {d : Argument}
    (hf : findArgShort optDefs 'h' = some (k, d)) (hb : d.ArgType = .Bool) (st : PState) :
    runTokens optDefs posDefs ["-h"] st = .ok ((helpMark st).setOpt k d.Name (.bool true)) := by
  have hts : tokenStep optDefs posDefs "-h" [] st = shortStep optDefs "h" [] st := rfl
  have hss : shortStep optDefs "h" [] st = shortLoop optDefs ['h'] [] (helpMark st) := rfl
  have hsl : shortLoop optDefs ['h'] [] (helpMark st) =
      .ok ((helpMark st).setOpt k d.Name (.bool true), false) := by
    unfold shortLoop
    simp only [hf, hb]
  simp only [runTokens, hts, hss, hsl]
  simp [runTokens]

theorem runTokens_V_short {optDefs posDefs : List Argument} {k : Nat} {d : Argument}
    (hf : findArgShort optDefs 'V' = some (k, d)) (hb : d.ArgType = .Bool) (st : PState) :
    runTokens optDefs posDefs ["-V"] st = .ok ((versionMark st).setOpt k d.Name (.bool true)) := by
  have hts : tokenStep optDefs posDefs "-V" [] st = shortStep optDefs "V" [] st := rfl
  have hss : shortStep optDefs "V" [] st = shortLoop optDefs ['V'] [] (versionMark st) := rfl
  have hsl : shortLoop optDefs ['V'] [] (versionMark st) =
      .ok ((versionMark st).setOpt k d.Name (.bool true), false) := by
    unfold shortLoop
    simp only [hf, hb]
  simp only [runTokens, hts, hss, hsl]
  simp [runTokens]

theorem parse_help_long {p : Parser} {k : Nat} {d : Argument}
    (hsub : p.subparsers = []) (hf : findArgLong p.args "help" = some (k, d))
    (hb : d.ArgType = .Bool) :
    ∃ m, Parse p ["--help"] = .helpExit m ∧ lookupKV "help" m = some (.bool true) := by
  have hdel : delegates p ["--help"] = false := by
    simp [delegates, hsub, subLookup]
  have hmain : Parse p ["--help"] = .helpExit
      (insertKV d.Name (.bool true)
        (insertKV "help" (.bool true) (initSt p.args p.positional).result)) := by
    rw [parse_eq_runMain hdel]
    unfold runMain
    rw [runTokens_help_long hf hb]
    rfl
  refine ⟨_, hmain, ?_⟩
  obtain ⟨hk, hget, hname⟩ := findArgLong_spec hf
  rw [hname]
  exact lookupKV_insertKV_self "help" (.bool true) _

theorem parse_version_long {p : Parser} {k : Nat} {d : Argument}
    (hsub : p.subparsers = []) (hf : findArgLong p.args "version" = some (k, d))
    (hb : d.ArgType = .Bool) :
    ∃ m, Parse p ["--version"] = .versionExit m ∧
      lookupKV "version" m = some (.bool true) := by
  have hdel : delegates p ["--version"] = false := by
    simp [delegates, hsub, subLookup]
  have hmain : Parse p ["--version"] = .versionExit
      (insertKV d.Name (.bool true)
        (insertKV "version" (.bool true) (initSt p.args p.positional).result)) := by
    rw [parse_eq_runMain hdel]
    unfold runMain
    rw [runTokens_version_long hf hb]
    rfl
  refine ⟨_, hmain, ?_⟩
  obtain ⟨hk, hget, hname⟩ := findArgLong_spec hf
  rw [hname]
  exact lookupKV_insertKV_self "version" (.bool true) _

theorem parse_h_short {p : Parser} {k : Nat} {d : Argument}
    (hsub : p.subparsers = []) (hf : findArgShort p.args 'h' = some (k, d))
    (hb : d.ArgType = .Bool) :
    ∃ m, Parse p ["-h"] = .helpExit m ∧ lookupKV "help" m = some (.bool true) := by
  have hdel : delegates p ["-h"] = false := by
    simp [delegates, hsub, subLookup]
  have hmain : Parse p ["-h"] = .helpExit
      (insertKV d.Name (.bool true)
        (insertKV "help" (.bool true) (initSt p.args p.positional).result)) := by
    rw [parse_eq_runMain hdel]
    unfold runMain
    rw [runTokens_h_short hf hb]
    rfl
  refine ⟨_, hmain, ?_⟩
  by_cases hn : d.Name = "help"
  · rw [hn]
    exact lookupKV_insertKV_self "help" (.bool true) _
  · rw [lookupKV_insertKV_ne _ _ (fun he => hn he.symm)]
    exact lookupKV_insertKV_self "help" (.bool true) _

theorem parse_V_short {p : Parser} {k : Nat} {d : Argument}
    (hsub : p.subparsers = []) (hf : findArgShort p.args 'V' = some (k, d))
    (hb : d.ArgType = .Bool) :
    ∃ m, Parse p ["-V"] = .versionExit m ∧ lookupKV "version" m = some (.bool true) := by
  have hdel : delegates p ["-V"] = false := by
    simp [delegates, hsub, subLookup]
  have hmain : Parse p ["-V"] = .versionExit
      (insertKV d.Name (.bool true)
        (insertKV "version" (.bool true) (initSt p.args p.positional).result)) := by
    rw [parse_eq_runMain hdel]
    unfold runMain
    rw [runTokens_V_short hf hb]
    rfl
  refine ⟨_, hmain, ?_⟩
  by_cases hn : d.Name = "version"
  · rw [hn]
    exact lookupKV_insertKV_self "version" (.bool true) _
  · rw [lookupKV_insertKV_ne _ _ (fun he => hn he.symm)]
    exact lookupKV_insertKV_self "version" (.bool true) _

theorem parse_help_unknown {p : Parser} (hsub : p.subparsers = [])
    (hf : findArgLong p.args "help" = none) :
    Parse p ["--help"] = .err (.unknownLong "help") := by
  have hdel : delegates p ["--help"] = false := by
    simp [delegates, hsub, subLookup]
  have hts : tokenStep p.args p.positional "--help" [] (initSt p.args p.positional) =
      longStep p.args "help" false "" [] (initSt p.args p.positional) := rfl
  have hls : longStep p.args "help" false "" [] (initSt p.args p.positional) =
      .error (.unknownLong "help") := by
    unfold longStep
    simp only [hf]
  have hrt : runTokens p.args p.positional ["--help"] (initSt p.args p.positional) =
      .error (.unknownLong "help") := by
    simp only [runTokens, hts, hls]
  rw [parse_eq_runMain hdel]
  unfold runMain
  rw [hrt]

theorem parse_version_unknown {p : Parser} (hsub : p.subparsers = [])
    (hf : findArgLong p.args "version" = none) :
    Parse p ["--version"] = .err (.unknownLong "version") := by
  have hdel : delegates p ["--version"] = false := by
    simp [delegates, hsub, subLookup]
  have hts : tokenStep p.args p.positional "--version" [] (initSt p.args p.positional) =
      longStep p.args "version" false "" [] (initSt p.args p.positional) := rfl
  have hls : longStep p.args "version" false "" [] (initSt p.args p.positional) =
      .error (.unknownLong "version") := by
    unfold longStep
    simp only [hf]
  have hrt : runTokens p.args p.positional ["--version"] (initSt p.args p.positional) =
      .error (.unknownLong "version") := by
    simp only [runTokens, hts, hls]
  rw [parse_eq_runMain hdel]
  unfold runMain
  rw [hrt]

theorem parse_h_unknown {p : Parser} (hsub : p.subparsers = [])
    (hf : findArgShort p.args 'h' = none) :
    Parse p ["-h"] = .err (.unknownShort 'h') := by
  have hdel : delegates p ["-h"] = false := by
    simp [delegates, hsub, subLookup]
  have hts : tokenStep p.args p.positional "-h" [] (initSt p.args p.positional) =
      shortStep p.args "h" [] (initSt p.args p.positional) := rfl
  have hss : shortStep p.args "h" [] (initSt p.args p.positional) =
      shortLoop p.args ['h'] [] (helpMark (initSt p.args p.positional)) := rfl
  have hsl : shortLoop p.args ['h'] [] (helpMark (initSt p.args p.positional)) =
      .error (.unknownShort 'h') := by
    unfold shortLoop
    simp only [hf]
  have hrt : runTokens p.args p.positional ["-h"] (initSt p.args p.positional) =
      .error (.unknownShort 'h') := by
    simp only [runTokens, hts, hss, hsl]
  rw [parse_eq_runMain hdel]
  unfold runMain
  rw [hrt]

theorem parse_V_unknown {p : Parser} (hsub : p.subparsers = [])
    (hf : findArgShort p.args 'V' = none) :
    Parse p ["-V"] = .err (.unknownShort 'V') := by
  have hdel : delegates p ["-V"] = false := by
    simp [delegates, hsub, subLookup]
  have hts : tokenStep p.args p.positional "-V" [] (initSt p.args p.positional) =
      shortStep p.args "V" [] (initSt p.args p.positional) := rfl
  have hss : shortStep p.args "V" [] (initSt p.args p.positional) =
      shortLoop p.args ['V'] [] (versionMark (initSt p.args p.positional)) := rfl
  have hsl : shortLoop p.args ['V'] [] (versionMark (initSt p.args p.positional)) =
      .error (.unknownShort 'V') := by
    unfold shortLoop
    simp only [hf]
  have hrt : runTokens p.args p.positional ["-V"] (initSt p.args p.positional) =
      .error (.unknownShort 'V') := by
    simp only [runTokens, hts, hss, hsl]
  rw [parse_eq_runMain hdel]
  unfold runMain
  rw [hrt]

/-- C1: the spec and the README claim that a supplied value outside a
definition's allowed-choices set makes Parse fail with an invalid-choice
error.  The code never reads `ValidChoices` during `Parse`: with choices
`option1/option2/option3`, the input `--choice invalid` parses successfully
and stores the out-of-set value. -/
theorem c1_choice_violation_accepted :
    pChoice.args.map Argument.ValidChoices = [["option1", "option2", "option3"]] ∧
    Parse pChoice ["--choice", "invalid"] = .ok [("choice", .str "invalid")] := by
  constructor
  · rfl
  · simp only [Parse]
    rfl

/-- C2: the spec claims `-p8080` with `p` of integer type yields `p = 8080`.
In the code, the fused value is stored but the `j = len(shortName)` /
`j+1 < len(shortName)` cluster-stop logic does not stop Go's range loop, so
scanning continues into the value characters and Parse fails with
`unknown argument: -8`. -/
theorem c2_fused_short_value_unknown_argument :
    Parse pPort ["-p8080"] = .err (.unknownShort '8') := by
  simp only [Parse]
  rfl

/-- C3: the spec claims `-abc value` (with `a`, `b` boolean and `c`
value-taking) sets `a = true`, `b = true`, `c = "value"`.  In the code the
`j+1 < len(shortName)` post-check breaks the cluster loop right after the
first boolean alias, so only `a` is set, `b` and `c` are silently dropped,
and the token `value` then fails as an unrecognized positional. -/
theorem c3_cluster_stops_after_first_bool :
    tokenStep pCluster.args pCluster.positional "-abc" ["value"]
        (initSt pCluster.args pCluster.positional) =
      .ok ((initSt pCluster.args pCluster.positional).setOpt 0 "alpha" (.bool true),
        false) ∧
    Parse pCluster ["-abc", "value"] = .err (.unrecognizedPositional "value") := by
  constructor
  · rfl
  · simp only [Parse]
    rfl

/-- C8: coercing `"a,b,c"` at list type yields exactly `["a","b","c"]`,
coercing the empty token yields the one-element sequence `[""]`, and list
coercion never fails. -/
theorem c8_list_coercion :
    parseValue .List "a,b,c" = .ok (.list ["a", "b", "c"]) ∧
    parseValue .List "" = .ok (.list [""]) ∧
    ∀ s : String, ∃ xs : List String, parseValue .List s = .ok (.list xs) := by
  refine ⟨rfl, rfl, fun s => ⟨_, rfl⟩⟩

/-- C10 counterexample: the claim says Parse's outcome is as if a `-` token
were absent, but `-` still occupies a token position: it blocks the one-token
look-ahead that `--name` uses to find its value, so `--name - v` fails while
`--name v` succeeds. -/
theorem c10_counterexample :
    Parse pName ["--name", "-", "v"] = .err (.longRequiresValue "name") ∧
    Parse pName ["--name", "v"] = .ok [("name", .str "v")] := by
  constructor
  · simp only [Parse]
    rfl
  · simp only [Parse]
    rfl

/-- C10 amended: a `-` token scanned by the walk is a short option with an
empty cluster: no error, no store, no positional slot consumed, and the walk
continues exactly as from the next token; but the whole-parse outcome is not
in general as if `-` were absent, since `-` still occupies a token position
(it blocks look-ahead value consumption and first-token subcommand
matching). -/
theorem c10_single_dash_skipped :
    (∀ (optDefs posDefs : List Argument) (rest : List String) (st : PState),
      runTokens optDefs posDefs ("-" :: rest) st = runTokens optDefs posDefs rest st) ∧
    Parse pPlain ["-"] = .ok [] := by
  constructor
  · intro optDefs posDefs rest st
    have hts : tokenStep optDefs posDefs "-" rest st = .ok (st, false) := rfl
    simp only [runTokens, hts]
    simp
  · simp only [Parse]
    rfl

/-- C5 counterexample: the claim says GetString returns the empty string for
a type-mismatched stored value; the code instead returns the value's default
Go rendering, here `"42"` for a stored int. -/
theorem c5_counterexample :
    GetString [("x", Value.int 42)] "x" = "42" ∧
    GetString [("x", Value.int 42)] "x" ≠ "" := by
  constructor
  · rfl
  · decide

/-- C5 amended: every typed getter returns its documented zero value when the
name is absent; GetInt, GetFloat, GetBool, GetList and GetDateTime also
return the zero value on a type-mismatched stored value; GetString instead
returns the stored value's default rendering (`fmt.Sprintf` with `%v`), in
particular the decimal digits of a stored int. -/
theorem c5_getters (m : ResMap) (name : String) :
    (lookupKV name m = none →
      GetString m name = "" ∧ GetInt m name = 0 ∧ GetFloat m name = goFloatZero ∧
      GetBool m name = false ∧ GetList m name = [] ∧ GetDateTime m name = goTimeZero) ∧
    (∀ v, lookupKV name m = some v →
      (v.isInt = false → GetInt m name = 0) ∧
      (v.isFloat = false → GetFloat m name = goFloatZero) ∧
      (v.isBool = false → GetBool m name = false) ∧
      (v.isList = false → GetList m name = []) ∧
      (v.isTime = false → GetDateTime m name = goTimeZero) ∧
      (v.isStr = false → GetString m name = sprintfV v)) ∧
    (∀ n : Int, lookupKV name m = some (.int n) → GetString m name = goIntRepr n) := by
  refine ⟨fun h => ?_, fun v hv => ?_, fun n hn => ?_⟩
  · simp [GetString, GetInt, GetFloat, GetBool, GetList, GetDateTime, GetRaw, h]
  · cases v <;>
      simp_all [GetString, GetInt, GetFloat, GetBool, GetList, GetDateTime, GetRaw,
        Value.isInt, Value.isFloat, Value.isBool, Value.isList, Value.isTime,
        Value.isStr, sprintfV]
  · simp [GetString, GetRaw, hn, sprintfV]

/-- C5 witness: the amended getter contract evaluated at concrete maps: an
absent name yields all six zero values, a bool under GetInt yields 0, and a
stored int under GetString yields its decimal rendering. -/
theorem c5_getters_witness :
    (GetString [("x", Value.int 42)] "y" = "" ∧ GetInt [("x", Value.int 42)] "y" = 0 ∧
     GetFloat [("x", Value.int 42)] "y" = goFloatZero ∧
     GetBool [("x", Value.int 42)] "y" = false ∧
     GetList [("x", Value.int 42)] "y" = [] ∧
     GetDateTime [("x", Value.int 42)] "y" = goTimeZero) ∧
    GetInt [("x", Value.bool true)] "x" = 0 ∧
    GetString [("x", Value.int 42)] "x" = goIntRepr 42 :=
  ⟨(c5_getters [("x", Value.int 42)] "y").1 (by decide),
   ((c5_getters [("x", Value.bool true)] "x").2.1 (.bool true) (by decide)).1 (by decide),
   (c5_getters [("x", Value.int 42)] "x").2.2 42 (by decide)⟩

/-- C4 counterexample: on a parser where AddHelp/AddVersion were never
called, Parse does report an unknown-argument error for `--help`, `-h`,
`--version` and `-V` (the special case records the flag, but the matching
loop still fails to find a definition and aborts). -/
theorem c4_counterexample :
    Parse pPlain ["--help"] = .err (.unknownLong "help") ∧
    Parse pPlain ["-h"] = .err (.unknownShort 'h') ∧
    Parse pPlain ["--version"] = .err (.unknownLong "version") ∧
    Parse pPlain ["-V"] = .err (.unknownShort 'V') := by
  refine ⟨?_, ?_, ?_, ?_⟩ <;> (simp only [Parse]; rfl)

/-- C4 amended: `--help` / `-h` and `--version` / `-V` set the help/version
flags and short-circuit to the help/version exit (bypassing required-argument
validation) whenever a Bool definition with that long name / short alias is
registered, as AddHelp/AddVersion do; on a parser without such definitions
the same tokens are an unknown-argument error, so the special-casing is not
independent of registration. -/
theorem c4_help_version_need_registration (p q : Parser) (kh kv ksh ksv : Nat)
    (dh dv dsh dsv : Argument)
    (hpsub : p.subparsers = []) (hqsub : q.subparsers = [])
    (hH : findArgLong p.args "help" = some (kh, dh)) (hHb : dh.ArgType = .Bool)
    (hV : findArgLong p.args "version" = some (kv, dv)) (hVb : dv.ArgType = .Bool)
    (hh : findArgShort p.args 'h' = some (ksh, dsh)) (hhb : dsh.ArgType = .Bool)
    (hv : findArgShort p.args 'V' = some (ksv, dsv)) (hvb : dsv.ArgType = .Bool)
    (hqH : findArgLong q.args "help" = none) (hqV : findArgLong q.args "version" = none)
    (hqh : findArgShort q.args 'h' = none) (hqv : findArgShort q.args 'V' = none) :
    (∃ m, Parse p ["--help"] = .helpExit m ∧ lookupKV "help" m = some (.bool true)) ∧
    (∃ m, Parse p ["-h"] = .helpExit m ∧ lookupKV "help" m = some (.bool true)) ∧
    (∃ m, Parse p ["--version"] = .versionExit m ∧
      lookupKV "version" m = some (.bool true)) ∧
    (∃ m, Parse p ["-V"] = .versionExit m ∧ lookupKV "version" m = some (.bool true)) ∧
    Parse q ["--help"] = .err (.unknownLong "help") ∧
    Parse q ["-h"] = .err (.unknownShort 'h') ∧
    Parse q ["--version"] = .err (.unknownLong "version") ∧
    Parse q ["-V"] = .err (.unknownShort 'V') :=
  ⟨parse_help_long hpsub hH hHb, parse_h_short hpsub hh hhb,
   parse_version_long hpsub hV hVb, parse_V_short hpsub hv hvb,
   parse_help_unknown hqsub hqH, parse_h_unknown hqsub hqh,
   parse_version_unknown hqsub hqV, parse_V_unknown hqsub hqv⟩

/-- C4 witness: the amended statement applied to the AddHelp/AddVersion
parser `pHV` and the bare parser `pPlain`, all hypotheses discharged by
computation. -/
theorem c4_help_version_witness :
    (∃ m, Parse pHV ["--help"] = .helpExit m ∧ lookupKV "help" m = some (.bool true)) ∧
    (∃ m, Parse pHV ["-h"] = .helpExit m ∧ lookupKV "help" m = some (.bool true)) ∧
    (∃ m, Parse pHV ["--version"] = .versionExit m ∧
      lookupKV "version" m = some (.bool true)) ∧
    (∃ m, Parse pHV ["-V"] = .versionExit m ∧ lookupKV "version" m = some (.bool true)) ∧
    Parse pPlain ["--help"] = .err (.unknownLong "help") ∧
    Parse pPlain ["-h"] = .err (.unknownShort 'h') ∧
    Parse pPlain ["--version"] = .err (.unknownLong "version") ∧
    Parse pPlain ["-V"] = .err (.unknownShort 'V') :=
  c4_help_version_need_registration pHV pPlain 0 1 0 1 helpArgDef versionArgDef
    helpArgDef versionArgDef rfl rfl (by decide) (by decide) (by decide) (by decide)
    (by decide) (by decide) (by decide) (by decide) (by decide) (by decide)
    (by decide) (by decide)

/-- C6: when the very first token names a registered subcommand, Parse
delegates the remaining tokens to the child parser's full parse and returns
immediately: a child success is merged over the outer defaults together with
the `subcommand` entry (child entries kept under their original keys), and a
child error or help/version exit propagates unchanged — the outer parser's
own token handling and required checks never run. -/
theorem c6_subcommand_delegation (p sub : Parser) (tok : String) (rest : List String)
    (h : subLookup p.subparsers tok = some sub) :
    (∀ m, Parse sub rest = .ok m →
      Parse p (tok :: rest) = .ok (mergeKV (insertKV "subcommand" (.str tok)
        (seedList p.positional (seedList p.args []))) m) ∧
      (∀ k2 v, lookupKV k2 m = some v →
        lookupKV k2 (mergeKV (insertKV "subcommand" (.str tok)
          (seedList p.positional (seedList p.args []))) m) = some v) ∧
      (lookupKV "subcommand" m = none →
        lookupKV "subcommand" (mergeKV (insertKV "subcommand" (.str tok)
          (seedList p.positional (seedList p.args []))) m) = some (.str tok))) ∧
    (∀ e, Parse sub rest = .err e → Parse p (tok :: rest) = .err e) ∧
    (∀ m, Parse sub rest = .helpExit m → Parse p (tok :: rest) = .helpExit m) ∧
    (∀ m, Parse sub rest = .versionExit m → Parse p (tok :: rest) = .versionExit m) := by
  refine ⟨fun m hm => ⟨?_, fun k2 v hv => ?_, fun hnone => ?_⟩,
    fun e he => ?_, fun m hm => ?_, fun m hm => ?_⟩
  · rw [parse_delegate h, hm]
  · exact lookupKV_mergeKV_of_some _ m (parse_ok_nodup hm) hv
  · rw [lookupKV_mergeKV_of_none _ m hnone]
    exact lookupKV_insertKV_self _ _ _
  · rw [parse_delegate h, he]
  · rw [parse_delegate h, hm]
  · rw [parse_delegate h, hm]

/-- C6 witness: delegation on the task-manager parser: `add --title X` runs
the `add` child, merges `title` under its original key, and records the
subcommand name, while the root's own option is still present with its
default. -/
theorem c6_subcommand_witness :
    Parse childAdd ["--title", "X"] = .ok [("title", Value.str "X")] ∧
    Parse rootP ["add", "--title", "X"] =
      .ok (mergeKV (insertKV "subcommand" (.str "add")
        (seedList rootP.positional (seedList rootP.args [])))
        [("title", Value.str "X")]) ∧
    lookupKV "title" (mergeKV (insertKV "subcommand" (.str "add")
      (seedList rootP.positional (seedList rootP.args [])))
      [("title", Value.str "X")]) = some (.str "X") ∧
    lookupKV "subcommand" (mergeKV (insertKV "subcommand" (.str "add")
      (seedList rootP.positional (seedList rootP.args [])))
      [("title", Value.str "X")]) = some (.str "add") := by
  have hchild : Parse childAdd ["--title", "X"] = .ok [("title", Value.str "X")] := by
    simp only [Parse]
    rfl
  have hc := (c6_subcommand_delegation rootP childAdd "add" ["--title", "X"] rfl).1
    [("title", Value.str "X")] hchild
  exact ⟨hchild, hc.1, hc.2.1 "title" (.str "X") (by decide), hc.2.2 (by decide)⟩

/-- C7: on the non-delegating path, for a parser whose definition names are
pairwise distinct: (a) whenever Parse succeeds, every optional or positional
definition carrying a default that was never marked seen during the walk has
a result entry equal to exactly that default, and every required definition
was marked seen; (b) whenever the walk completes without help/version flags
but some required definition is unseen, Parse fails with a
missing-required-argument error rather than producing a result. -/
theorem c7_defaults_and_required (p : Parser) (args : List String)
    (hnd : delegates p args = false)
    (hdist : ((p.args ++ p.positional).map Argument.Name).Nodup) :
    (∀ res, Parse p args = .ok res →
      ∃ st, runState p args = .ok st ∧ res = st.result ∧
        (∀ k, ∀ hk : k < p.args.length, k ∉ st.seenOpt →
          ∀ v, (p.args.get ⟨k, hk⟩).DefaultVal = some v →
            lookupKV (p.args.get ⟨k, hk⟩).Name res = some v) ∧
        (∀ k, ∀ hk : k < p.positional.length, k ∉ st.seenPos →
          ∀ v, (p.positional.get ⟨k, hk⟩).DefaultVal = some v →
            lookupKV (p.positional.get ⟨k, hk⟩).Name res = some v) ∧
        (∀ k, ∀ hk : k < p.args.length,
          (p.args.get ⟨k, hk⟩).IsRequired = true → k ∈ st.seenOpt) ∧
        (∀ k, ∀ hk : k < p.positional.length,
          (p.positional.get ⟨k, hk⟩).IsRequired = true → k ∈ st.seenPos)) ∧
    (∀ st, runState p args = .ok st → st.hasHelp = false → st.hasVersion = false →
      ((∃ k, ∃ hk : k < p.args.length,
          (p.args.get ⟨k, hk⟩).IsRequired = true ∧ k ∉ st.seenOpt) ∨
        (∃ k, ∃ hk : k < p.positional.length,
          (p.positional.get ⟨k, hk⟩).IsRequired = true ∧ k ∉ st.seenPos)) →
      ∃ e, Parse p args = .err e ∧ e.isMissingRequired = true) := by
  constructor
  · intro res hok
    rw [parse_eq_runMain hnd] at hok
    obtain ⟨st, hrt, hh, hv, hre, hres⟩ := runMain_ok_spec hok
    have hrs : runState p args = .ok st := hrt
    obtain ⟨hropt, hrpos⟩ := (requiredErr_none_iff p.args p.positional st).mp hre
    refine ⟨st, hrs, hres, ?_, ?_, hropt, hrpos⟩
    · intro k hk hun v hval
      rw [hres]
      exact runState_default_opt hdist hrs hh hv hk hun hval
    · intro k hk hun v hval
      rw [hres]
      exact runState_default_pos hdist hrs hh hv hk hun hval
  · intro st hrs hh hv hex
    cases hre : requiredErr p.args p.positional st with
    | none =>
      exfalso
      obtain ⟨hropt, hrpos⟩ := (requiredErr_none_iff p.args p.positional st).mp hre
      rcases hex with ⟨k, hk, hreq, hun⟩ | ⟨k, hk, hreq, hun⟩
      · exact hun (hropt k hk hreq)
      · exact hun (hrpos k hk hreq)
    | some e =>
      refine ⟨e, ?_, requiredErr_isMissing hre⟩
      rw [parse_eq_runMain hnd]
      exact runMain_err_required hrs hh hv hre

/-- C7 witness: the defaults-and-required contract applied to a concrete
parser with a defaulted option, a required option, and a defaulted
positional, on the input `--count 5`: the unseen defaulted definitions keep
exactly their defaults, and the supplied required definition is seen. -/
theorem c7_defaults_witness :
    Parse pDefaults ["--count", "5"] =
      .ok [("output", Value.str "output.txt"), ("config", Value.str "default.conf"),
           ("count", Value.int 5)] ∧
    lookupKV "output"
      [("output", Value.str "output.txt"), ("config", Value.str "default.conf"),
       ("count", Value.int 5)] = some (.str "output.txt") ∧
    lookupKV "config"
      [("output", Value.str "output.txt"), ("config", Value.str "default.conf"),
       ("count", Value.int 5)] = some (.str "default.conf") := by
  have hok : Parse pDefaults ["--count", "5"] =
      .ok [("output", Value.str "output.txt"), ("config", Value.str "default.conf"),
           ("count", Value.int 5)] := by
    simp only [Parse]
    rfl
  obtain ⟨st, hrs, hres, hdefo, hdefp, hreqo, hreqp⟩ :=
    (c7_defaults_and_required pDefaults ["--count", "5"] (by decide) (by decide)).1
      _ hok
  have hst : st = ⟨[("output", Value.str "output.txt"),
      ("config", Value.str "default.conf"), ("count", Value.int 5)], [1], [], 0,
      false, false⟩ := by
    have hrs2 : runState pDefaults ["--count", "5"] =
        .ok ⟨[("output", Value.str "output.txt"),
          ("config", Value.str "default.conf"), ("count", Value.int 5)], [1], [], 0,
          false, false⟩ := rfl
    rw [hrs] at hrs2
    simpa using hrs2
  subst hst
  refine ⟨hok, ?_, ?_⟩
  · have := hdefo 0 (by decide) (by decide) (.str "output.txt") rfl
    rw [hres] at this
    exact this
  · have := hdefp 0 (by decide) (by decide) (.str "default.conf") rfl
    rw [hres] at this
    exact this

/-- C9: registering through the `Bool` method stores `DefaultVal = false`
regardless of the caller's supplied default (the method overwrites it), and
on any successful non-delegating parse in which this flag was never seen,
the result maps its long name to `false`. -/
theorem c9_bool_default_forced_false (p : Parser) (short long : String) (o : Argument) :
    (boolStamped short long o).DefaultVal = some (.bool false) ∧
    (p.BoolAdd short long o).args = p.args ++ [boolStamped short long o] ∧
    (∀ args res st,
      delegates (p.BoolAdd short long o) args = false →
      (((p.BoolAdd short long o).args ++
        (p.BoolAdd short long o).positional).map Argument.Name).Nodup →
      Parse (p.BoolAdd short long o) args = .ok res →
      runState (p.BoolAdd short long o) args = .ok st →
      p.args.length ∉ st.seenOpt →
      lookupKV long res = some (.bool false)) := by
  refine ⟨rfl, ?_, ?_⟩
  · cases p
    rfl
  · intro args res st hnd hdist hok hrs hun
    have hk : p.args.length < (p.BoolAdd short long o).args.length := by
      cases p
      simp [Parser.BoolAdd, Parser.FlagAdd, Parser.args]
    have hget : (p.BoolAdd short long o).args.get ⟨p.args.length, hk⟩ =
        boolStamped short long o := by
      cases p
      simp [Parser.BoolAdd, Parser.FlagAdd, Parser.args, boolStamped]
    have hdv : ((p.BoolAdd short long o).args.get ⟨p.args.length, hk⟩).DefaultVal =
        some (.bool false) := by
      rw [hget]
      rfl
    have hname : ((p.BoolAdd short long o).args.get ⟨p.args.length, hk⟩).Name = long := by
      rw [hget]
      rfl
    rw [parse_eq_runMain hnd] at hok
    obtain ⟨st2, hrt, hh, hv, hre, hres⟩ := runMain_ok_spec hok
    have hst : st2 = st := by
      have hrs2 : runState (p.BoolAdd short long o) args = .ok st2 := hrt
      rw [hrs] at hrs2
      simpa using hrs2.symm
    subst hst
    have hlook := runState_default_opt hdist hrs hh hv hk hun hdv
    rw [hname] at hlook
    rw [hres]
    exact hlook

/-- C9 witness: a `Bool` flag declared with caller default `true` still
parses to `false` when never supplied. -/
theorem c9_bool_default_witness :
    Parse pBoolDefault [] = .ok [("verbose", Value.bool false)] ∧
    lookupKV "verbose" [("verbose", Value.bool false)] = some (.bool false) := by
  have hok : Parse pBoolDefault [] = .ok [("verbose", Value.bool false)] := by
    simp only [Parse]
    rfl
  refine ⟨hok, ?_⟩
  exact (c9_bool_default_forced_false (NewParser "app" "demo") "v" "verbose"
    { Description := "Verbose", DefaultVal := some (.bool true) }).2.2 []
    [("verbose", Value.bool false)]
    ⟨[("verbose", Value.bool false)], [], [], 0, false, false⟩
    (by decide) (by decide) hok rfl (by decide)

end Argparse
